import Mathlib

/-!
Verification development for the agentic ideation system.

This file gives a shallow embedding of the Python sources:

* `src/async_agent_processor.py` — the concurrency core ("Dispatcher"):
  `AsyncAgentProcessor._process_with_retry`, `_agent_process_batch`,
  `process_items` and `_log_stats`.
* `src/utils/schemas.py` — the pydantic configuration schema and its
  field validators.
* `src/utils/tasks.py` — `generate_hierarchical_tasks`.
* `src/synthesizer.py` — `chunk_hierarchical_results`, `summarize_results`
  and the chunk formatting helpers.

Python texts are embedded as `List Char` (Python `str` slicing and `len`
act on characters), Python dicts that are built by insertion and iterated
in insertion order are embedded as association lists, and Python
exceptions are embedded with `Except`.  A remote call that can fail by
returning `None` is embedded as an oracle producing `Option` values.
-/

/-- Python text: a string as a list of characters. -/
abbrev PyText := List Char

/-- Errors a modelled Python fragment can raise. -/
inductive PyError where
  | zeroDivision
  | valueError
  deriving DecidableEq, Repr

/-! ## Python dicts as insertion-ordered association lists -/

/-- Python dict lookup on an insertion-ordered association list. -/
def assocFind? (k : String) : List (String × β) → Option β
  | [] => none
  | p :: rest => if p.1 = k then some p.2 else assocFind? k rest

/-- Python dict assignment `d[k] = v` on an insertion-ordered association
list: replaces in place when the key exists, appends at the end
otherwise. -/
def assocSet (k : String) (v : β) : List (String × β) → List (String × β)
  | [] => [(k, v)]
  | p :: rest => if p.1 = k then (k, v) :: rest else p :: assocSet k v rest

/-- Assigning a fresh key appends the pair at the end. -/
theorem assocSet_not_mem (k : String) (v : β) :
    ∀ l : List (String × β), k ∉ l.map Prod.fst →
      assocSet k v l = l ++ [(k, v)] := by
  intro l
  induction l with
  | nil => intro; rfl
  | cons p rest ih =>
    intro hk
    simp only [List.map_cons, List.mem_cons, not_or] at hk
    rw [assocSet, if_neg (fun hc => hk.1 hc.symm), ih hk.2]
    rfl

/-! ## Dispatcher: `src/async_agent_processor.py` -/

/-- Embeds `AgentConfig` (`async_agent_processor.py`, lines 25-33).
`api_timeout` is kept for fidelity; a timed-out attempt is embedded the
same way as a raising attempt, exactly as the code treats it. -/
structure AgentConfig where
  cpu_cores : Nat := 1
  agents_per_core : Nat := 2
  items_per_batch : Nat := 10
  api_timeout : ℚ := 30
  max_retries : Nat := 3
  retry_delay : ℚ := 1
  deriving Repr

/-- `self.total_agents = self.config.cpu_cores * self.config.agents_per_core`. -/
def AgentConfig.totalAgents (c : AgentConfig) : Nat :=
  c.cpu_cores * c.agents_per_core

/-- Embeds `AgentStats` (`async_agent_processor.py`, lines 35-42). -/
structure AgentStats where
  agent_id : Nat
  processed : Nat := 0
  failed : Nat := 0
  api_calls : Nat := 0
  total_api_time : ℚ := 0
  deriving Repr

/-- One attempt of `processor(item)` under `asyncio.timeout`:
`Except.error ()` is a raised exception or a timeout (the code treats the
two identically); `Except.ok v` is a normal return, where `v = none`
embeds Python returning `None` (as `make_api_call` does on failure). -/
abbrev AttemptOutcome (R : Type) := Except Unit (Option R)

/-- Everything observable about one `_process_with_retry` call:
its return/raise behaviour, how many attempts ran, the increments it made
to the owning agent's stats fields, and the backoff sleeps it performed
(in order). -/
structure RetryOutcome (R : Type) where
  result : Except Unit (Option R)
  attempts : Nat
  processedInc : Nat
  failedInc : Nat
  callsInc : Nat
  timeInc : ℚ
  sleeps : List ℚ
  deriving Repr

/-- The retry loop of `_process_with_retry` (lines 73-92), recursing on the
number of attempts still available; `i` is the 0-indexed `attempt` loop
variable.  Each attempt increments the api-call count and accumulates the
attempt's wall time `dur i` (the `finally` of `_api_call_context` runs on
success and failure alike).  A successful return increments `processed`
and returns the value — even when that value is `none`.  A failure on the
last attempt increments `failed` and re-raises; earlier failures sleep
`retry_delay * (attempt + 1)` and continue. -/
def retryGo (rd : ℚ) (proc : Nat → AttemptOutcome R) (dur : Nat → ℚ) :
    Nat → Nat → RetryOutcome R
  | 0, _ => ⟨.ok none, 0, 0, 0, 0, 0, []⟩
  | 1, i =>
    match proc i with
    | .ok v => ⟨.ok v, 1, 1, 0, 1, dur i, []⟩
    | .error _ => ⟨.error (), 1, 0, 1, 1, dur i, []⟩
  | (k+2), i =>
    match proc i with
    | .ok v => ⟨.ok v, 1, 1, 0, 1, dur i, []⟩
    | .error _ =>
      let rest := retryGo rd proc dur (k+1) (i+1)
      ⟨rest.result, rest.attempts + 1, rest.processedInc, rest.failedInc,
        rest.callsInc + 1, dur i + rest.timeInc, rd * (i+1) :: rest.sleeps⟩

/-- Embeds `AsyncAgentProcessor._process_with_retry`: run the retry loop
`for attempt in range(max_retries)` from attempt 0. -/
def processWithRetry (maxRetries : Nat) (rd : ℚ) (proc : Nat → AttemptOutcome R)
    (dur : Nat → ℚ) : RetryOutcome R :=
  retryGo rd proc dur maxRetries 0

/-- The terminal outcome `_agent_process_batch` sees for one item: `some v`
when `_process_with_retry` returned (the value `v` is appended to the
batch results, `none` included), `none` when it raised after exhausting
retries (the item is logged and skipped). -/
def finalValue (cfg : AgentConfig) (proc : T → Nat → AttemptOutcome R)
    (dur : T → Nat → ℚ) (item : T) : Option (Option R) :=
  match (processWithRetry cfg.max_retries cfg.retry_delay (proc item) (dur item)).result with
  | .ok v => some v
  | .error _ => none

/-- Embeds `_agent_process_batch` (lines 94-108): per-item results in item
order, failed items skipped. -/
def agentProcessBatch (cfg : AgentConfig) (proc : T → Nat → AttemptOutcome R)
    (dur : T → Nat → ℚ) (batch : List T) : List (Option R) :=
  batch.filterMap (finalValue cfg proc dur)

/-- Fuel-indexed body of the batching loop
`for i in range(0, len(items), self.config.items_per_batch)`:
chunks of size `m + 1`.  The fuel is the length of the list, which always
suffices. -/
def chunkListF (m : Nat) : Nat → List α → List (List α)
  | 0, _ => []
  | _, [] => []
  | fuel+1, x :: xs => (x :: xs.take m) :: chunkListF m fuel (xs.drop m)

/-- Splits `items` into consecutive batches of size `m + 1` (the last may
be shorter), as `items[i:i+items_per_batch]` does for a positive step. -/
def chunkList (m : Nat) (l : List α) : List (List α) :=
  chunkListF m l.length l

/-- Stats increments one agent accumulates over the run: the sum over the
batches assigned to that agent slot (`agent_id = i % self.total_agents`)
of the per-item increments, starting from a zeroed `AgentStats`. -/
def agentStatsFor (cfg : AgentConfig) (proc : T → Nat → AttemptOutcome R)
    (dur : T → Nat → ℚ) (batches : List (List T)) (a : Nat) : AgentStats :=
  batches.enum.foldl
    (fun s p =>
      if p.1 % cfg.totalAgents = a then
        p.2.foldl
          (fun s item =>
            let o := processWithRetry cfg.max_retries cfg.retry_delay (proc item) (dur item)
            { s with
              processed := s.processed + o.processedInc
              failed := s.failed + o.failedInc
              api_calls := s.api_calls + o.callsInc
              total_api_time := s.total_api_time + o.timeInc })
          s
      else s)
    { agent_id := a }

/-- Embeds `_log_stats` (lines 150-173).  The totals line divides
`total_api_time / total_api_calls` — a `ZeroDivisionError` when no call
was made — and the per-agent lines divide by each agent's own
`api_calls`, a `ZeroDivisionError` as soon as some agent made no call. -/
def logStats (stats : List AgentStats) : Except PyError Unit :=
  if (stats.map (·.api_calls)).sum = 0 then .error .zeroDivision
  else if stats.any (fun s => s.api_calls = 0) then .error .zeroDivision
  else .ok ()

/-- Embeds `AsyncAgentProcessor.process_items` (lines 110-148).
`range(0, len(items), 0)` raises `ValueError`; `i % 0` raises
`ZeroDivisionError`; every batch coroutine returns normally (it catches
per-item exceptions), so `asyncio.gather` concatenation keeps batch
order; `_log_stats` runs last and can raise. -/
def processItems (cfg : AgentConfig) (items : List T)
    (proc : T → Nat → AttemptOutcome R) (dur : T → Nat → ℚ) :
    Except PyError (List (Option R)) :=
  match cfg.items_per_batch with
  | 0 => .error .valueError
  | m+1 =>
    let batches := chunkList m items
    if cfg.totalAgents = 0 && !batches.isEmpty then .error .zeroDivision
    else
      let results := (batches.map (agentProcessBatch cfg proc dur)).flatten
      let stats := (List.range cfg.totalAgents).map (agentStatsFor cfg proc dur batches)
      match logStats stats with
      | .error e => .error e
      | .ok _ => .ok results

/-! ## Configuration schema: `src/utils/schemas.py` -/

/-- Embeds `Prompts` (`schemas.py`, lines 16-25). -/
structure Prompts where
  subtask_execution : String
  synthesizer : String
  deriving Repr

/-- Embeds `TaskFocusLevel` (`schemas.py`, lines 28-33).  The only field
constraint pydantic enforces on it is `num_agents: gt=0`; the `focuses`
list carries no constraint. -/
structure TaskFocusLevel where
  level_name : String
  focuses : List String
  num_agents : Nat
  parent_focus : Option String
  deriving Repr

/-- Embeds `DeepDiveAgentType` (`schemas.py`, lines 36-40). -/
structure DeepDiveAgentType where
  name : String
  focus : String
  num_agents : Nat
  deriving Repr

/-- Embeds `DeepDiveLevel` (`schemas.py`, lines 43-46). -/
structure DeepDiveLevel where
  level_name : String
  agent_types : List DeepDiveAgentType
  deriving Repr

/-- Embeds `Config` (`schemas.py`, lines 49-68). -/
structure Config where
  topic : String
  focus_levels : List TaskFocusLevel
  prompts : Prompts
  deep_dive_agents : Option (List DeepDiveLevel)
  deriving Repr

/-- Pydantic validation of one `TaskFocusLevel`: only `num_agents: gt=0`.
There is no constraint on `focuses` — an empty list passes. -/
def validateTaskFocusLevel (l : TaskFocusLevel) : Bool :=
  decide (0 < l.num_agents)

/-- Pydantic validation of one `DeepDiveAgentType`: `num_agents: gt=0`. -/
def validateDeepDiveAgentType (t : DeepDiveAgentType) : Bool :=
  decide (0 < t.num_agents)

/-- Pydantic validation of a whole `Config`, field constraints as declared
in `schemas.py`: `topic: min_length=10`, `focus_levels: min_items=1`, and
the per-model constraints of the nested models. -/
def validateConfig (c : Config) : Bool :=
  decide (10 ≤ c.topic.length) &&
  decide (1 ≤ c.focus_levels.length) &&
  c.focus_levels.all validateTaskFocusLevel &&
  (match c.deep_dive_agents with
   | none => true
   | some gs => gs.all (fun g => g.agent_types.all validateDeepDiveAgentType))

/-! ## Task generation: `src/utils/tasks.py` -/

/-- Embeds the task-key scheme of `tasks.py` line 39:
`f"{level.level_name}_{focus}_{j+1}".lower().replace(" ", "_")`. -/
def pyTaskId (levelName focus : String) (j : Nat) : String :=
  String.mk (((levelName ++ "_" ++ focus ++ "_" ++ toString (j+1)).data.map
    Char.toLower).map (fun ch => if ch = ' ' then '_' else ch))

/-- Embeds the task description of `tasks.py` lines 40-44.  Python uses
`level.parent_focus if level.parent_focus else 'Root'`, so an empty or
missing parent focus both render as `Root`. -/
def taskDescription (focus levelName : String) (parent : Option String)
    (topic : String) : String :=
  "Focus: " ++ focus ++ " within " ++ levelName ++ "\n" ++
  "Parent Focus: " ++
    (match parent with
     | some p => if p.isEmpty then "Root" else p
     | none => "Root") ++ "\n" ++
  "Task: Analyze and provide insights for " ++ topic

/-- The per-level body of `generate_hierarchical_tasks` (`tasks.py` lines
25-49): `base = num_agents // len(focuses)` and
`rem = num_agents % len(focuses)` raise `ZeroDivisionError` on an empty
`focuses`; otherwise focus `i` (0-indexed, declared order) receives a
group of `base + 1` tasks when `i < rem` and `base` tasks otherwise, and
the group is written into the level dict with
`level_tasks[focus] = focus_tasks` — so a duplicate focus name
overwrites the earlier group in place.  (Inside one group the task keys
`f"{level}_{focus}_{j+1}"` carry the distinct 1-based index `j+1`, so the
inner dict writes never collide and a plain ordered list is faithful
there.) -/
def generateLevelTasks (topic : String) (level : TaskFocusLevel) :
    Except PyError (List (String × List (String × String))) :=
  if level.focuses.length = 0 then .error .zeroDivision
  else
    let base := level.num_agents / level.focuses.length
    let rem := level.num_agents % level.focuses.length
    .ok (level.focuses.enum.foldl (fun acc p =>
      assocSet p.2 ((List.range (base + if p.1 < rem then 1 else 0)).map (fun j =>
        (pyTaskId level.level_name p.2 j,
         taskDescription p.2 level.level_name level.parent_focus topic))) acc) [])

/-- The level loop of `generate_hierarchical_tasks`: process the levels
in declared order into the accumulated `tasks` dict — a duplicate level
name overwrites with `tasks[level.level_name] = level_tasks` — aborting
with the first level's `ZeroDivisionError`. -/
def generateLevelsGo (topic : String) :
    List TaskFocusLevel → List (String × List (String × List (String × String))) →
    Except PyError (List (String × List (String × List (String × String))))
  | [], acc => .ok acc
  | lvl :: rest, acc =>
    match generateLevelTasks topic lvl with
    | .error e => .error e
    | .ok lt => generateLevelsGo topic rest (assocSet lvl.level_name lt acc)

/-- Embeds `generate_hierarchical_tasks` (`tasks.py` lines 17-54): start
from the empty `tasks` dict and run the level loop. -/
def generateHierarchicalTasks (config : Config) :
    Except PyError (List (String × List (String × List (String × String)))) :=
  generateLevelsGo config.topic config.focus_levels []

/-! ## Chunking engine: `src/synthesizer.py`, `chunk_hierarchical_results` -/

/-- One focus group of the result tree: `task_key → result text`. -/
abbrev FocusTasks := List (String × PyText)

/-- One level of the result tree: `focus → focus group`. -/
abbrev LevelTasks := List (String × FocusTasks)

/-- The hierarchical result tree `level → focus → task_key → text`, and
also the shape of one chunk. -/
abbrev ResultTree := List (String × LevelTasks)

/-- A chunk has the same nested-mapping shape as the result tree. -/
abbrev Chunk := ResultTree

instance : DecidableEq LevelTasks := inferInstance

instance : DecidableEq ResultTree := inferInstance

/-- Embeds the truncation of `synthesizer.py` lines 49 and 58:
`str(r)[:1500] + "..." if len(str(r)) > 1500 else str(r)`. -/
def pyTruncate (t : PyText) : PyText :=
  if 1500 < t.length then t.take 1500 ++ "...".data else t

/-- The dict comprehension of `synthesizer.py` lines 57-60: truncate every
entry of a focus group. -/
def truncateFocus (ft : FocusTasks) : FocusTasks :=
  ft.map (fun p => (p.1, pyTruncate p.2))

/-- `focus_size = sum(len(str(task)) for task in focus_tasks.values())`
(`synthesizer.py` line 30): the untruncated sizes. -/
def focusSize (ft : FocusTasks) : Nat :=
  (ft.map (fun p => p.2.length)).sum

/-- The oversized-focus-group split loop (`synthesizer.py` lines 38-53):
walk the group's entries with a running sub-chunk `temp` and its
truncated-size counter `tsize`; before adding an entry whose untruncated
size would push `tsize` past 8000, flush the non-empty sub-chunk; then
add the truncated entry and advance `tsize` by the truncated length; a
non-empty leftover is flushed at the end. -/
def splitGo (lvl foc : String) : FocusTasks → FocusTasks → Nat → List Chunk
  | [], temp, _ => if temp = [] then [] else [[(lvl, [(foc, temp)])]]
  | (tid, tres) :: rest, temp, tsize =>
    if 8000 < tsize + tres.length ∧ temp ≠ [] then
      [(lvl, [(foc, temp)])] ::
        splitGo lvl foc rest (assocSet tid (pyTruncate tres) [])
          (0 + (pyTruncate tres).length)
    else
      splitGo lvl foc rest (assocSet tid (pyTruncate tres) temp)
        (tsize + (pyTruncate tres).length)

/-- State of the chunking sweep: emitted chunks, the running chunk and its
accumulated (untruncated) size counter. -/
structure ChunkState where
  chunks : List Chunk
  current : Chunk
  size : Nat
  deriving Repr

/-- `synthesizer.py` lines 55-60: ensure the level key exists in the
running chunk, then assign the focus group under it. -/
def setFocusInChunk (c : Chunk) (lvl foc : String) (tasks : FocusTasks) : Chunk :=
  assocSet lvl (assocSet foc tasks ((assocFind? lvl c).getD [])) c

/-- The body of the chunking loop for one focus group (`synthesizer.py`
lines 29-61): flush the non-empty running chunk if the group's untruncated
size would push it past 8000; route an oversized group (> 8000 on its own)
through the split path, bypassing the running chunk; otherwise add the
truncated group to the running chunk, advancing its size counter by the
untruncated group size. -/
def processFocus (st : ChunkState) (lvl foc : String) (ft : FocusTasks) : ChunkState :=
  let fsize := focusSize ft
  let st1 : ChunkState :=
    if 8000 < st.size + fsize ∧ st.current ≠ [] then
      ⟨st.chunks ++ [st.current], [], 0⟩
    else st
  if 8000 < fsize then
    { st1 with chunks := st1.chunks ++ splitGo lvl foc ft [] 0 }
  else
    { st1 with
      current := setFocusInChunk st1.current lvl foc (truncateFocus ft)
      size := st1.size + fsize }

/-- The inner loop of `chunk_hierarchical_results` over the focuses of one
level, in declared order. -/
def chunkLevel (st : ChunkState) (lvl : String) (lt : LevelTasks) : ChunkState :=
  lt.foldl (fun s fp => processFocus s lvl fp.1 fp.2) st

/-- Embeds `chunk_hierarchical_results` (`synthesizer.py` lines 17-66):
sweep levels then focuses in order, and flush a non-empty final running
chunk. -/
def chunkHierarchicalResults (r : ResultTree) : List Chunk :=
  let st := r.foldl (fun s lp => chunkLevel s lp.1 lp.2) ⟨[], [], 0⟩
  if st.current = [] then st.chunks else st.chunks ++ [st.current]

/-- Task keys of one focus group, in order. -/
def focusKeys (ft : FocusTasks) : List String := ft.map Prod.fst

/-- Task keys of one level, in traversal order. -/
def levelKeys (lt : LevelTasks) : List String :=
  (lt.map (fun fp => focusKeys fp.2)).flatten

/-- Task keys of a tree or chunk, in traversal order. -/
def treeKeys (t : ResultTree) : List String :=
  (t.map (fun lp => levelKeys lp.2)).flatten

/-- Entry texts of one level, in traversal order. -/
def levelVals (lt : LevelTasks) : List PyText :=
  (lt.map (fun fp => fp.2.map Prod.snd)).flatten

/-- Entry texts of a tree or chunk, in traversal order. -/
def treeVals (t : ResultTree) : List PyText :=
  (t.map (fun lp => levelVals lp.2)).flatten

/-- The stored size of a chunk: total length of the texts it actually
holds (these are the truncated texts). -/
def storedSize (c : Chunk) : Nat :=
  ((treeVals c).map List.length).sum

/-- Number of entries of a chunk holding a truncated (length > 1500)
text. -/
def truncCount (c : Chunk) : Nat :=
  ((treeVals c).filter (fun t => 1500 < t.length)).length

/-- A result tree as `chunk_hierarchical_results` receives it from a
Python dict-of-dicts: level names are distinct, focus names are distinct
within a level, task keys are distinct within a focus group. -/
def WFTree (r : ResultTree) : Prop :=
  (r.map Prod.fst).Nodup ∧
  (∀ lp ∈ r, (lp.2.map Prod.fst).Nodup) ∧
  (∀ lp ∈ r, ∀ fp ∈ lp.2, (fp.2.map Prod.fst).Nodup)

/-! ## Synthesis pipeline: `src/synthesizer.py`, `summarize_results` -/

/-- Embeds the truncation of `format_chunk_text` line 164 (cap 2000). -/
def truncate2000 (t : PyText) : PyText :=
  if 2000 < t.length then t.take 2000 ++ "...".data else t

/-- Embeds `format_chunk_text` (`synthesizer.py` lines 154-169). -/
def formatChunkText (c : Chunk) : PyText :=
  c.foldl (fun acc lp =>
    lp.2.foldl (fun acc2 fp =>
      fp.2.foldl (fun acc3 tp =>
        acc3 ++ '\n' :: (tp.1.data ++ ':' :: ' ' :: truncate2000 tp.2))
        (acc2 ++ ('\n' :: "Focus Area: ".data) ++ fp.1.data ++ ['\n']))
      (acc ++ ('\n' :: '\n' :: "Level: ".data) ++ lp.1.data ++ ['\n'])) []

/-- Embeds `create_timestamp_info` (`synthesizer.py` lines 180-187); the
formatted end time and duration are taken as parameters, the rest is the
literal template. -/
def createTimestampInfo (endTime duration : PyText) (chunkCount : Nat) : PyText :=
  "Analysis Timestamp: ".data ++ endTime ++ '\n' ::
  ("Processing Duration: ".data ++ duration ++ '\n' ::
  ("Total Chunks Processed: ".data ++ (toString chunkCount).data ++ '\n' ::
  (List.replicate 50 '=' ++ '\n' :: '\n' :: [])))

/-- Embeds `format_final_summary` (`synthesizer.py` lines 203-212). -/
def formatFinalSummary (summary tsInfo topic endTime : PyText) : PyText :=
  "=== Final Analysis ===\n".data ++ tsInfo ++
  "Topic: ".data ++ topic ++ "\n\n".data ++ summary ++ "\n\n".data ++
  List.replicate 50 '=' ++ "\n".data ++
  "End of Analysis - Generated at ".data ++ endTime

/-- Stage 2 of `summarize_results` (lines 93-119): walk the chunks in
order with a call counter `n`; a chunk whose formatted text is empty is
skipped without a call; otherwise one remote call is made, and the
response is kept only when it is truthy (not `None`, not empty).
Returns the kept summaries in order and the number of calls made. -/
def summarizeChunksGo (api : Nat → Option PyText) :
    List Chunk → List PyText → Nat → List PyText × Nat
  | [], acc, n => (acc, n)
  | c :: rest, acc, n =>
    if formatChunkText c = [] then summarizeChunksGo api rest acc n
    else
      match api n with
      | some resp =>
        if resp = [] then summarizeChunksGo api rest acc (n+1)
        else summarizeChunksGo api rest (acc ++ [resp]) (n+1)
      | none => summarizeChunksGo api rest acc (n+1)

/-- Embeds `summarize_results` (`synthesizer.py` lines 68-152).  The
opaque remote endpoint is the oracle `api`, mapping the index of a call
(in the order the calls are made) to the value `make_api_call` returns
for it — `none` embeds Python `None`, the failure marker for transport
errors, non-2xx status or malformed payload.  Timestamp renderings are
parameters.  Falsy (`None` or empty) responses are dropped; the stage
returns `none` when the input is empty, when no chunks are produced, when
no chunk summary is kept, or when the final-reduction call's response is
falsy. -/
def summarizeResults (results : ResultTree) (api : Nat → Option PyText)
    (topic endTime duration : PyText) : Option PyText :=
  if results = [] then none
  else
    let chunks := chunkHierarchicalResults results
    if chunks.length = 0 then none
    else
      let s2 := summarizeChunksGo api chunks [] 0
      if s2.1 = [] then none
      else
        match api s2.2 with
        | some finalSummary =>
          if finalSummary = [] then none
          else some (formatFinalSummary finalSummary
            (createTimestampInfo endTime duration chunks.length) topic endTime)
        | none => none

/-! ## Dispatcher lemmas and claims -/

/-- When every attempt raises (or times out), the retry loop starting at
attempt `i` with `k ≥ 1` attempts left raises, runs all `k` attempts,
records one failure and no success, and sleeps
`retry_delay * (j + 1)` after each non-final 0-indexed attempt `j`. -/
theorem retryGo_always_error (rd : ℚ) (proc : Nat → AttemptOutcome R)
    (dur : Nat → ℚ) (h : ∀ i, proc i = .error ()) :
    ∀ k i, 1 ≤ k →
      (retryGo rd proc dur k i).result = .error () ∧
      (retryGo rd proc dur k i).attempts = k ∧
      (retryGo rd proc dur k i).failedInc = 1 ∧
      (retryGo rd proc dur k i).processedInc = 0 ∧
      (retryGo rd proc dur k i).sleeps =
        (List.range' i (k - 1)).map (fun j => rd * (j + 1)) := by
  intro k
  induction k with
  | zero => intro i hk; omega
  | succ k ih =>
    intro i _
    match k, ih with
    | 0, _ => simp [retryGo, h i]
    | k + 1, ih =>
      have hrec := ih (i + 1) (by omega)
      simp only [retryGo, h i]
      refine ⟨hrec.1, by simp [hrec.2.1], hrec.2.2.1, hrec.2.2.2.1, ?_⟩
      rw [hrec.2.2.2.2]
      have : k + 1 + 1 - 1 = (k + 1 - 1) + 1 := by omega
      rw [this, List.range'_succ]
      simp

/-- C6 amended, part of the Dispatcher contract: for a WorkItem whose
underlying call fails on every attempt and `max_retries ≥ 1`, the
Dispatcher attempts it exactly `max_retries` times, increments the failed
counter exactly once, increments the processed counter never, re-raises
to the batch worker, and between (1-indexed) attempt `k` and attempt
`k + 1` waits `retry_delay * k` — that is, the sleep after 0-indexed
attempt `j` is `retry_delay * (j + 1)`. -/
theorem processWithRetry_always_fail (mr : Nat) (rd : ℚ)
    (proc : Nat → AttemptOutcome R) (dur : Nat → ℚ)
    (hmr : 1 ≤ mr) (h : ∀ i, proc i = .error ()) :
    (processWithRetry mr rd proc dur).result = .error () ∧
    (processWithRetry mr rd proc dur).attempts = mr ∧
    (processWithRetry mr rd proc dur).failedInc = 1 ∧
    (processWithRetry mr rd proc dur).processedInc = 0 ∧
    (processWithRetry mr rd proc dur).sleeps =
      (List.range (mr - 1)).map (fun j => rd * (j + 1)) := by
  have := retryGo_always_error rd proc dur h mr 0 hmr
  rw [List.range_eq_range']
  exact this

/-- C6 witness: the amended contract at `max_retries = 3`,
`retry_delay = 1`: three attempts, one failure record, sleeps `[1, 2]`. -/
theorem processWithRetry_always_fail_witness :
    (processWithRetry (R := Nat) 3 1 (fun _ => .error ()) (fun _ => 0)).result = .error () ∧
    (processWithRetry (R := Nat) 3 1 (fun _ => .error ()) (fun _ => 0)).attempts = 3 ∧
    (processWithRetry (R := Nat) 3 1 (fun _ => .error ()) (fun _ => 0)).failedInc = 1 ∧
    (processWithRetry (R := Nat) 3 1 (fun _ => .error ()) (fun _ => 0)).processedInc = 0 ∧
    (processWithRetry (R := Nat) 3 1 (fun _ => .error ()) (fun _ => 0)).sleeps =
      (List.range 2).map (fun j => (1 : ℚ) * (j + 1)) :=
  processWithRetry_always_fail 3 1 (fun _ => .error ()) (fun _ => 0)
    (by decide) (fun _ => rfl)

/-- C6 counterexample to the claim as stated: with `max_retries = 3` and
`retry_delay = 1` the sleeps are `[1 * 1, 1 * 2]`, not
`[1 * (1 + 1), 1 * (2 + 1)]` as "waits `retry_delay * (k + 1)` between
1-indexed attempts `k` and `k + 1`" would demand: the wait between the
first and second attempt is `retry_delay * 1`, not `retry_delay * 2`. -/
theorem backoff_factor_counterexample :
    (processWithRetry (R := Nat) 3 1 (fun _ => .error ()) (fun _ => 0)).sleeps =
      [1 * (1 : ℚ), 1 * (2 : ℚ)] ∧
    (processWithRetry (R := Nat) 3 1 (fun _ => .error ()) (fun _ => 0)).sleeps ≠
      [1 * ((1 : ℚ) + 1), 1 * ((2 : ℚ) + 1)] := by
  constructor
  · simp [processWithRetry, retryGo]
    norm_num
  · simp [processWithRetry, retryGo]

/-- C2 counterexample to the claim as stated: a processor whose every
attempt returns no value (Python `None`, as `make_api_call` does on
transport errors, non-2xx status or malformed payload) is not retried —
`_process_with_retry` returns after a single attempt, counts the item as
processed, records no failure, and `process_items` places the absent
value in its list of successful results. -/
theorem none_recorded_as_success_counterexample :
    processItems (R := Nat) ⟨1, 1, 1, 30, 3, 1⟩ [()]
      (fun _ _ => .ok none) (fun _ _ => 0) = .ok [none] ∧
    (processWithRetry (R := Nat) 3 1 (fun _ => .ok none) (fun _ => 0)).attempts = 1 ∧
    (processWithRetry (R := Nat) 3 1 (fun _ => .ok none) (fun _ => 0)).failedInc = 0 ∧
    (processWithRetry (R := Nat) 3 1 (fun _ => .ok none) (fun _ => 0)).processedInc = 1 := by
  refine ⟨rfl, by decide, by decide, by decide⟩

/-- C2 amended: the Dispatcher retries only attempts that raise or time
out.  An attempt that returns no value (`None`) is recorded as a
successful result: one attempt, `processed` incremented once, `failed`
untouched, no backoff sleep, and the absent value itself returned to the
batch worker. -/
theorem processWithRetry_none_is_success (mr : Nat) (rd : ℚ)
    (proc : Nat → AttemptOutcome R) (dur : Nat → ℚ)
    (hmr : 1 ≤ mr) (h : proc 0 = .ok none) :
    processWithRetry mr rd proc dur = ⟨.ok none, 1, 1, 0, 1, dur 0, []⟩ := by
  match mr, hmr with
  | 1, _ => simp [processWithRetry, retryGo, h]
  | k + 2, _ => simp [processWithRetry, retryGo, h]

/-- C2 witness: the amended behaviour at `max_retries = 3`. -/
theorem processWithRetry_none_is_success_witness :
    processWithRetry (R := Nat) 3 1 (fun _ => .ok none) (fun _ => 0) =
      ⟨.ok none, 1, 1, 0, 1, 0, []⟩ :=
  processWithRetry_none_is_success 3 1 (fun _ => .ok none) (fun _ => 0)
    (by decide) rfl

/-- C1: `_log_stats` divides by each agent's `api_calls` (and by the call
total), so `process_items` raises `ZeroDivisionError` whenever an
agent-stat bucket received zero calls, instead of returning its result
list.  With `cpu_cores = 1, agents_per_core = 2` (two agent slots) a
single ten-item batch is owned by agent 0, agent 1 makes no call, and the
very same input that succeeds under a one-slot configuration crashes; an
empty item list crashes through the zero call total. -/
theorem processItems_crashes_on_idle_agent :
    processItems (R := Nat) ⟨1, 2, 10, 30, 3, 1⟩ [()]
      (fun _ _ => .ok (some 0)) (fun _ _ => 0) = .error .zeroDivision ∧
    processItems (R := Nat) ⟨1, 1, 10, 30, 3, 1⟩ [()]
      (fun _ _ => .ok (some 0)) (fun _ _ => 0) = .ok [some 0] ∧
    processItems (R := Nat) ⟨1, 1, 10, 30, 3, 1⟩ ([] : List Unit)
      (fun _ _ => .ok (some 0)) (fun _ _ => 0) = .error .zeroDivision := by
  refine ⟨rfl, rfl, rfl⟩

/-- Flattening the batches reproduces the item list. -/
theorem chunkListF_flatten (m : Nat) :
    ∀ (fuel : Nat) (l : List α), l.length ≤ fuel →
      (chunkListF m fuel l).flatten = l := by
  intro fuel
  induction fuel with
  | zero =>
    intro l hl
    match l, hl with
    | [], _ => rfl
  | succ fuel ih =>
    intro l hl
    match l with
    | [] => rfl
    | x :: xs =>
      simp only [chunkListF, List.flatten_cons]
      rw [ih (xs.drop m) (by simp at hl ⊢; omega)]
      simp [List.take_append_drop]

/-- `chunkList` is a partition of the input in order. -/
theorem chunkList_flatten (m : Nat) (l : List α) :
    (chunkList m l).flatten = l :=
  chunkListF_flatten m l.length l le_rfl

/-- C10: when `process_items` returns at all, its result list is exactly
the per-item terminal values of the successfully processed items, in
input order: batches partition the input in order, `asyncio.gather`
returns the batch lists in batch order, each batch worker appends item
results in item order and omits the items whose retries were
exhausted. -/
theorem processItems_ok_ordered (cfg : AgentConfig) (items : List T)
    (proc : T → Nat → AttemptOutcome R) (dur : T → Nat → ℚ)
    (l : List (Option R))
    (h : processItems cfg items proc dur = .ok l) :
    l = items.filterMap (finalValue cfg proc dur) := by
  rcases cfg with ⟨cc, apc, ipb, tmo, mr, rd⟩
  cases ipb with
  | zero => simp [processItems] at h
  | succ m =>
    simp only [processItems] at h
    split at h
    · simp at h
    · split at h
      · simp at h
      · rename_i heq
        simp only [Except.ok.injEq] at h
        subst h
        show (_ : List (List (Option R))).flatten = _
        rw [show agentProcessBatch
            ⟨cc, apc, m + 1, tmo, mr, rd⟩ proc dur =
            List.filterMap (finalValue ⟨cc, apc, m + 1, tmo, mr, rd⟩ proc dur) from rfl]
        rw [← List.filterMap_flatten, chunkList_flatten]

/-- C10 witness: a one-item run that returns normally, whose result list
is the filtered item list. -/
theorem processItems_ok_ordered_witness :
    ([some 5] : List (Option Nat)) =
      [0].filterMap (finalValue ⟨1, 1, 1, 30, 3, 1⟩
        (fun _ _ => .ok (some 5)) (fun _ _ => 0)) :=
  processItems_ok_ordered ⟨1, 1, 1, 30, 3, 1⟩ [0]
    (fun _ _ => .ok (some 5)) (fun _ _ => 0) [some 5] rfl

/-! ## Task generation claims -/

/-- Sum of an even task distribution over indices `0..n-1`: each index
contributes `b`, plus one extra for the first `r` indices. -/
theorem sum_distribution (b r : Nat) :
    ∀ n, ((List.range n).map (fun i => b + if i < r then 1 else 0)).sum
      = b * n + min r n := by
  intro n
  induction n with
  | zero => simp
  | succ n ih =>
    rw [List.range_succ]
    simp only [List.map_append, List.sum_append, ih, List.map_cons,
      List.map_nil, List.sum_cons, List.sum_nil]
    rw [Nat.mul_succ]
    split
    · rename_i hlt
      omega
    · rename_i hge
      omega

/-- With pairwise-distinct keys, building a dict by successive writes in
a loop yields exactly the ordered list of key/value pairs. -/
theorem foldl_assocSet_eq_map (f : Nat × String → β) :
    ∀ (l : List (Nat × String)) (acc : List (String × β)),
      ((l.map Prod.snd).Nodup) →
      (∀ k ∈ acc.map Prod.fst, k ∉ l.map Prod.snd) →
      l.foldl (fun a p => assocSet p.2 (f p) a) acc =
        acc ++ l.map (fun p => (p.2, f p)) := by
  intro l
  induction l with
  | nil => intro acc _ _; simp
  | cons p rest ih =>
    intro acc hnd hdisj
    have hp : p.2 ∉ acc.map Prod.fst := by
      intro hc
      exact hdisj p.2 hc (by simp)
    rw [List.foldl_cons, assocSet_not_mem p.2 (f p) acc hp]
    rw [ih (acc ++ [(p.2, f p)]) ?_ ?_]
    · simp
    · simp only [List.map_cons, List.nodup_cons] at hnd
      exact hnd.2
    · intro k hk
      simp only [List.map_append, List.mem_append, List.map_cons, List.map_nil,
        List.mem_singleton] at hk
      rcases hk with hk | hk
      · intro hc
        exact hdisj k hk (by simp [hc])
      · subst hk
        simp only [List.map_cons, List.nodup_cons] at hnd
        exact hnd.1

/-- C3 amended: for a level whose `focuses` is non-empty with
pairwise-distinct focus names and whose
`num_agents = B * len(focuses) + r` with `r < len(focuses)`,
`generate_hierarchical_tasks` succeeds on the level, produces one focus
group per focus in declared order, gives the `i`-th focus exactly
`B + 1` tasks when `i < r` and exactly `B` otherwise, and the level's
total task count is exactly `num_agents`.  Distinctness is necessary:
a duplicate focus name overwrites the earlier group in the level dict
(see the counterexample). -/
theorem generateLevelTasks_distribution (topic : String) (lvl : TaskFocusLevel)
    (b r : Nat) (hne : lvl.focuses ≠ []) (hnd : lvl.focuses.Nodup)
    (hn : lvl.num_agents = b * lvl.focuses.length + r)
    (hr : r < lvl.focuses.length) :
    ∃ lt, generateLevelTasks topic lvl = .ok lt ∧
      lt.map Prod.fst = lvl.focuses ∧
      (∀ i, ∀ h : i < lt.length,
        ((lt.get ⟨i, h⟩).2).length = b + if i < r then 1 else 0) ∧
      (lt.map (fun fp => fp.2.length)).sum = lvl.num_agents := by
  have hlen : 0 < lvl.focuses.length := List.length_pos.mpr hne
  have hB : lvl.num_agents / lvl.focuses.length = b := by
    rw [hn, Nat.mul_comm b, Nat.mul_add_div hlen, Nat.div_eq_of_lt hr,
      Nat.add_zero]
  have hRm : lvl.num_agents % lvl.focuses.length = r := by
    rw [hn, Nat.mul_comm b, Nat.mul_add_mod, Nat.mod_eq_of_lt hr]
  have hfold : lvl.focuses.enum.foldl (fun acc p =>
      assocSet p.2 ((List.range (b + if p.1 < r then 1 else 0)).map (fun j =>
        (pyTaskId lvl.level_name p.2 j,
         taskDescription p.2 lvl.level_name lvl.parent_focus topic))) acc) [] =
      lvl.focuses.enum.map (fun p =>
        (p.2, (List.range (b + if p.1 < r then 1 else 0)).map (fun j =>
          (pyTaskId lvl.level_name p.2 j,
           taskDescription p.2 lvl.level_name lvl.parent_focus topic)))) := by
    have := foldl_assocSet_eq_map
      (fun p : Nat × String => (List.range (b + if p.1 < r then 1 else 0)).map (fun j =>
        (pyTaskId lvl.level_name p.2 j,
         taskDescription p.2 lvl.level_name lvl.parent_focus topic)))
      lvl.focuses.enum []
      (by rw [List.enum_map_snd]; exact hnd)
      (by intro k hk; cases hk)
    simpa using this
  refine ⟨lvl.focuses.enum.map (fun p =>
      (p.2, (List.range (b + if p.1 < r then 1 else 0)).map (fun j =>
        (pyTaskId lvl.level_name p.2 j,
         taskDescription p.2 lvl.level_name lvl.parent_focus topic)))),
    ?_, ?_, ?_, ?_⟩
  · rw [generateLevelTasks, if_neg (by omega),
      show (lvl.num_agents / lvl.focuses.length) = b from hB,
      show (lvl.num_agents % lvl.focuses.length) = r from hRm]
    exact congrArg Except.ok hfold
  · rw [List.map_map]
    have hfst : Prod.fst ∘ (fun p : Nat × String => (p.2,
        (List.range (b + if p.1 < r then 1 else 0)).map (fun j =>
          (pyTaskId lvl.level_name p.2 j,
           taskDescription p.2 lvl.level_name lvl.parent_focus topic)))) =
        Prod.snd := rfl
    rw [hfst, List.enum_map_snd]
  · intro i h
    simp only [List.get_eq_getElem, List.getElem_map, List.getElem_enum,
      List.length_map, List.length_range]
  · rw [List.map_map]
    have hmap : ((fun fp : String × List (String × String) => fp.2.length) ∘
        (fun p : Nat × String => (p.2,
          (List.range (b + if p.1 < r then 1 else 0)).map (fun j =>
            (pyTaskId lvl.level_name p.2 j,
             taskDescription p.2 lvl.level_name lvl.parent_focus topic))))) =
        (fun i => b + if i < r then 1 else 0) ∘ Prod.fst := by
      funext p
      simp
    rw [hmap, ← List.map_map, List.enum_map_fst, sum_distribution,
      Nat.min_eq_left (by omega), hn]

/-- C3 counterexample to the claim as stated: a level with the duplicate
focus list `["x", "x"]` and `num_agents = 2` (so `B = 1`, `r = 0`, and
the claim demands one task per focus, total 2).  Python's dict write
`level_tasks[focus] = focus_tasks` lets the second `"x"` overwrite the
first, leaving a single one-task focus group: the level total is 1, not
`num_agents`. -/
theorem duplicate_focus_counterexample :
    (generateLevelTasks "Duplicate focus topic"
        ⟨"L", ["x", "x"], 2, none⟩).map
      (fun lt => ((lt.map (fun fp => fp.2.length)).sum, lt.length)) =
      .ok (1, 1) ∧
    (1 : Nat) ≠ (⟨"L", ["x", "x"], 2, none⟩ : TaskFocusLevel).num_agents := by
  refine ⟨rfl, by decide⟩

/-- C3 witness: the spec scenario — distinct focuses `["x", "y"]`, five
agents — distributes as three tasks for `x` and two for `y`. -/
theorem generateLevelTasks_distribution_witness :
    ∃ lt, generateLevelTasks "Spec scenario topic"
        ⟨"Level A", ["x", "y"], 5, none⟩ = .ok lt ∧
      lt.map Prod.fst = ["x", "y"] ∧
      (∀ i, ∀ h : i < lt.length,
        ((lt.get ⟨i, h⟩).2).length = 2 + if i < 1 then 1 else 0) ∧
      (lt.map (fun fp => fp.2.length)).sum = 5 :=
  generateLevelTasks_distribution "Spec scenario topic"
    ⟨"Level A", ["x", "y"], 5, none⟩ 2 1 (by decide) (by decide) (by decide)
    (by decide)

/-- C7 counterexample to the claim as stated: a `Config` whose single
`FocusLevel` has an empty `focuses` sequence passes schema validation —
pydantic declares no constraint on `focuses` — and the failure only
surfaces later, as the `ZeroDivisionError` of
`generate_hierarchical_tasks` at task-generation time. -/
theorem empty_focuses_validation_counterexample :
    validateConfig ⟨"0123456789", [⟨"L", [], 1, none⟩], ⟨"", ""⟩, none⟩ = true ∧
    generateHierarchicalTasks ⟨"0123456789", [⟨"L", [], 1, none⟩], ⟨"", ""⟩, none⟩
      = .error .zeroDivision := by
  refine ⟨rfl, rfl⟩

/-- The level loop of `generate_hierarchical_tasks` aborts with
`ZeroDivisionError` as soon as a level with an empty `focuses` is
reached (every earlier failure is also a `ZeroDivisionError`),
whatever the accumulated dict holds. -/
theorem generateLevelsGo_empty_focuses (topic : String) :
    ∀ (ls : List TaskFocusLevel)
      (acc : List (String × List (String × List (String × String)))),
      (∃ lvl ∈ ls, lvl.focuses = []) →
      generateLevelsGo topic ls acc = .error .zeroDivision := by
  intro ls
  induction ls with
  | nil =>
    rintro acc ⟨lvl, hmem, _⟩
    cases hmem
  | cons l rest ih =>
    rintro acc ⟨lvl, hmem, hempty⟩
    rw [generateLevelsGo]
    match hgen : generateLevelTasks topic l with
    | .error e =>
      have hlen : l.focuses.length = 0 := by
        by_contra hcon
        rw [generateLevelTasks, if_neg hcon] at hgen
        cases hgen
      have he : e = PyError.zeroDivision := by
        rw [generateLevelTasks, if_pos hlen] at hgen
        cases hgen
        rfl
      subst he
      rfl
    | .ok lt =>
      rcases List.mem_cons.mp hmem with hl | hl
      · subst hl
        rw [generateLevelTasks, if_pos (by simp [hempty])] at hgen
        cases hgen
      · exact ih (assocSet l.level_name lt acc) ⟨lvl, hl, hempty⟩

/-- C7 amended: a `Config` with an empty `focuses` sequence in some level
is not rejected at validation time — it passes `validateConfig` whenever
its other declared constraints hold — and the run instead fails later,
when `generate_hierarchical_tasks` raises `ZeroDivisionError` while
dividing by `len(level.focuses)`. -/
theorem empty_focuses_fail_at_generation (c : Config)
    (htopic : 10 ≤ c.topic.length) (hlev : 1 ≤ c.focus_levels.length)
    (hagents : ∀ lvl ∈ c.focus_levels, 0 < lvl.num_agents)
    (hdd : ∀ gs, c.deep_dive_agents = some gs →
      ∀ g ∈ gs, ∀ t ∈ g.agent_types, 0 < t.num_agents)
    (h : ∃ lvl ∈ c.focus_levels, lvl.focuses = []) :
    validateConfig c = true ∧
    generateHierarchicalTasks c = .error .zeroDivision := by
  constructor
  · rw [validateConfig]
    simp only [Bool.and_eq_true, decide_eq_true_eq, List.all_eq_true]
    refine ⟨⟨⟨htopic, hlev⟩, ?_⟩, ?_⟩
    · intro lvl hmem
      simpa [validateTaskFocusLevel] using hagents lvl hmem
    · cases hdd2 : c.deep_dive_agents with
      | none => rfl
      | some gs =>
        simp only [List.all_eq_true]
        intro g hg t ht
        simpa [validateDeepDiveAgentType] using hdd gs hdd2 g hg t ht
  · exact generateLevelsGo_empty_focuses c.topic c.focus_levels [] h

/-- C7 witness: the amended statement at the concrete empty-focuses
configuration. -/
theorem empty_focuses_fail_at_generation_witness :
    validateConfig ⟨"0123456789", [⟨"L", ["f"], 2, none⟩, ⟨"M", [], 1, none⟩],
      ⟨"", ""⟩, none⟩ = true ∧
    generateHierarchicalTasks ⟨"0123456789", [⟨"L", ["f"], 2, none⟩,
      ⟨"M", [], 1, none⟩], ⟨"", ""⟩, none⟩ = .error .zeroDivision :=
  empty_focuses_fail_at_generation
    ⟨"0123456789", [⟨"L", ["f"], 2, none⟩, ⟨"M", [], 1, none⟩], ⟨"", ""⟩, none⟩
    (by decide) (by decide)
    (by intro lvl hmem; fin_cases hmem <;> decide)
    (by intro gs hgs; cases hgs)
    ⟨⟨"M", [], 1, none⟩, by simp, rfl⟩

/-! ## Chunking engine lemmas -/

/-- Task keys of a chunk sequence, concatenated in chunk order. -/
def chunksKeys (cs : List Chunk) : List String :=
  (cs.map treeKeys).flatten

/-- Looking up an absent key yields nothing. -/
theorem assocFind?_not_mem (k : String) :
    ∀ l : List (String × β), k ∉ l.map Prod.fst →
      assocFind? k l = none := by
  intro l
  induction l with
  | nil => intro; rfl
  | cons p rest ih =>
    intro hk
    simp only [List.map_cons, List.mem_cons, not_or] at hk
    rw [assocFind?, if_neg (fun hc => hk.1 hc.symm), ih hk.2]

/-- Looking up the key of the final pair, absent earlier, finds it. -/
theorem assocFind?_append_last (k : String) (d : β) :
    ∀ c₀ : List (String × β), k ∉ c₀.map Prod.fst →
      assocFind? k (c₀ ++ [(k, d)]) = some d := by
  intro c₀
  induction c₀ with
  | nil => intro; simp [assocFind?]
  | cons p rest ih =>
    intro hk
    simp only [List.map_cons, List.mem_cons, not_or] at hk
    rw [List.cons_append, assocFind?,
      if_neg (fun hc => hk.1 hc.symm), ih hk.2]

/-- Assigning to the key of the final pair, absent earlier, replaces it. -/
theorem assocSet_append_last (k : String) (v d : β) :
    ∀ c₀ : List (String × β), k ∉ c₀.map Prod.fst →
      assocSet k v (c₀ ++ [(k, d)]) = c₀ ++ [(k, v)] := by
  intro c₀
  induction c₀ with
  | nil => intro; simp [assocSet]
  | cons p rest ih =>
    intro hk
    simp only [List.map_cons, List.mem_cons, not_or] at hk
    rw [List.cons_append, assocSet,
      if_neg (fun hc => hk.1 hc.symm), ih hk.2]
    rfl

/-- Keys distribute over appending trees. -/
theorem treeKeys_append (a b : ResultTree) :
    treeKeys (a ++ b) = treeKeys a ++ treeKeys b := by
  simp [treeKeys]

/-- Keys distribute over appending level maps. -/
theorem levelKeys_append (a b : LevelTasks) :
    levelKeys (a ++ b) = levelKeys a ++ levelKeys b := by
  simp [levelKeys]

/-- Keys distribute over appending chunk lists. -/
theorem chunksKeys_append (a b : List Chunk) :
    chunksKeys (a ++ b) = chunksKeys a ++ chunksKeys b := by
  simp [chunksKeys]

/-- Keys of a one-level chunk. -/
theorem treeKeys_singleton (lvl : String) (lt : LevelTasks) :
    treeKeys [(lvl, lt)] = levelKeys lt := by
  simp [treeKeys]

/-- Keys of a one-focus level. -/
theorem levelKeys_singleton (foc : String) (ft : FocusTasks) :
    levelKeys [(foc, ft)] = ft.map Prod.fst := by
  simp [levelKeys, focusKeys]

/-- Truncation keeps the keys of a focus group. -/
theorem truncateFocus_keys (ft : FocusTasks) :
    (truncateFocus ft).map Prod.fst = ft.map Prod.fst := by
  simp [truncateFocus]

/-- The split path is key-lossless and order-preserving: the
concatenated keys of its sub-chunks are the pending sub-chunk's keys
followed by the remaining entries' keys, provided the remaining keys are
distinct and none of them already occurs in the pending sub-chunk. -/
theorem splitGo_keys (lvl foc : String) :
    ∀ (tasks temp : FocusTasks) (tsize : Nat),
      ((tasks.map Prod.fst).Nodup) →
      (∀ k ∈ temp.map Prod.fst, k ∉ tasks.map Prod.fst) →
      chunksKeys (splitGo lvl foc tasks temp tsize) =
        temp.map Prod.fst ++ tasks.map Prod.fst := by
  intro tasks
  induction tasks with
  | nil =>
    intro temp tsize _ _
    by_cases h : temp = []
    · rw [splitGo, if_pos h, h]
      rfl
    · rw [splitGo, if_neg h]
      simp [chunksKeys, treeKeys_singleton, levelKeys_singleton]
  | cons task rest ih =>
    rcases task with ⟨tid, tres⟩
    intro temp tsize hnd htemp
    have htid_rest : tid ∉ rest.map Prod.fst := by
      simp only [List.map_cons, List.nodup_cons] at hnd
      exact hnd.1
    have hrest_nd : (rest.map Prod.fst).Nodup := by
      simp only [List.map_cons, List.nodup_cons] at hnd
      exact hnd.2
    have htid_temp : tid ∉ temp.map Prod.fst := by
      intro hc
      exact htemp tid hc (by simp)
    by_cases hfl : 8000 < tsize + tres.length ∧ temp ≠ []
    · rw [splitGo, if_pos hfl]
      rw [show ([(lvl, [(foc, temp)])] :: splitGo lvl foc rest
          (assocSet tid (pyTruncate tres) []) (0 + (pyTruncate tres).length)) =
          [[(lvl, [(foc, temp)])]] ++ splitGo lvl foc rest
          (assocSet tid (pyTruncate tres) []) (0 + (pyTruncate tres).length)
          from rfl]
      rw [chunksKeys_append]
      rw [ih (assocSet tid (pyTruncate tres) []) (0 + (pyTruncate tres).length)
        hrest_nd ?hfresh]
      case hfresh =>
        intro k hk
        simp only [assocSet, List.map_cons, List.map_nil,
          List.mem_singleton] at hk
        subst hk
        exact htid_rest
      simp [chunksKeys, treeKeys_singleton, levelKeys_singleton, assocSet]
    · rw [splitGo, if_neg hfl]
      rw [ih (assocSet tid (pyTruncate tres) temp)
        (tsize + (pyTruncate tres).length) hrest_nd ?hfresh2]
      case hfresh2 =>
        intro k hk
        rw [assocSet_not_mem tid (pyTruncate tres) temp htid_temp] at hk
        simp only [List.map_append, List.mem_append, List.map_cons,
          List.map_nil, List.mem_singleton] at hk
        rcases hk with hk | hk
        · intro hc
          exact htemp k hk (by simp [hc])
        · subst hk
          exact htid_rest
      rw [assocSet_not_mem tid (pyTruncate tres) temp htid_temp]
      simp

/-- Adding a focus group under a level absent from the running chunk
appends a fresh one-focus level at the end. -/
theorem setFocusInChunk_absent (c : Chunk) (lvl foc : String) (ts : FocusTasks)
    (habs : lvl ∉ c.map Prod.fst) :
    setFocusInChunk c lvl foc ts = c ++ [(lvl, [(foc, ts)])] := by
  rw [setFocusInChunk, assocFind?_not_mem lvl c habs]
  rw [assocSet_not_mem lvl _ c habs]
  rfl

/-- Adding a focus group under the running chunk's last level appends the
focus inside that level, provided the focus is new there. -/
theorem setFocusInChunk_present (c₀ : Chunk) (d : LevelTasks)
    (lvl foc : String) (ts : FocusTasks)
    (h₀ : lvl ∉ c₀.map Prod.fst) (hfoc : foc ∉ d.map Prod.fst) :
    setFocusInChunk (c₀ ++ [(lvl, d)]) lvl foc ts =
      c₀ ++ [(lvl, d ++ [(foc, ts)])] := by
  rw [setFocusInChunk, assocFind?_append_last lvl d c₀ h₀]
  rw [show (some d).getD [] = d from rfl]
  rw [assocSet_not_mem foc ts d hfoc]
  rw [assocSet_append_last lvl _ d c₀ h₀]


/-- Invariant of the running chunk while the focuses named in `pending`
of level `lvl` are still to be processed: its level keys are distinct,
and if `lvl` is present it is the last entry and its focus keys avoid
every pending focus name. -/
def LevelInv (cur : Chunk) (lvl : String) (pending : List String) : Prop :=
  (cur.map Prod.fst).Nodup ∧
  (lvl ∈ cur.map Prod.fst →
    ∃ c₀ d, cur = c₀ ++ [(lvl, d)] ∧ lvl ∉ c₀.map Prod.fst ∧
      ∀ f ∈ pending, f ∉ d.map Prod.fst)

/-- One step of the chunking loop: the emitted-plus-running keys grow by
exactly the focus group's keys in order, the invariant survives for the
remaining focuses, and the running chunk's level keys stay within the old
ones plus `lvl`. -/
theorem processFocus_keys (st : ChunkState) (lvl foc : String) (ft : FocusTasks)
    (restKeys : List String)
    (hnd : (foc :: restKeys).Nodup)
    (hinv : LevelInv st.current lvl (foc :: restKeys))
    (hft : (ft.map Prod.fst).Nodup) :
    (chunksKeys (processFocus st lvl foc ft).chunks ++
        treeKeys (processFocus st lvl foc ft).current =
      chunksKeys st.chunks ++ treeKeys st.current ++ ft.map Prod.fst) ∧
    LevelInv (processFocus st lvl foc ft).current lvl restKeys ∧
    (∀ k ∈ (processFocus st lvl foc ft).current.map Prod.fst,
      k ∈ st.current.map Prod.fst ∨ k = lvl) := by
  have hfoc_rest : foc ∉ restKeys := (List.nodup_cons.mp hnd).1
  -- the flushed-or-not intermediate state
  by_cases hflush : 8000 < st.size + focusSize ft ∧ st.current ≠ []
  case pos =>
    rw [show processFocus st lvl foc ft =
        (if 8000 < focusSize ft then
          { chunks := (st.chunks ++ [st.current]) ++ splitGo lvl foc ft [] 0,
            current := ([] : Chunk), size := 0 }
         else
          { chunks := st.chunks ++ [st.current],
            current := setFocusInChunk [] lvl foc (truncateFocus ft),
            size := 0 + focusSize ft }) from by
      rw [processFocus]
      rw [if_pos hflush]]
    have hbase : chunksKeys (st.chunks ++ [st.current]) =
        chunksKeys st.chunks ++ treeKeys st.current := by
      rw [chunksKeys_append]
      simp [chunksKeys]
    by_cases hbig : 8000 < focusSize ft
    · rw [if_pos hbig]
      refine ⟨?_, ?_, ?_⟩
      · rw [chunksKeys_append, hbase,
          splitGo_keys lvl foc ft [] 0 hft (by intro k hk; cases hk)]
        simp [treeKeys]
      · exact ⟨List.nodup_nil, by intro h; cases h⟩
      · intro k hk
        cases hk
    · rw [if_neg hbig]
      rw [setFocusInChunk_absent [] lvl foc (truncateFocus ft) (by intro h; cases h)]
      refine ⟨?_, ?_, ?_⟩
      · rw [hbase]
        simp [treeKeys, levelKeys, focusKeys, truncateFocus_keys]
      · constructor
        · simp
        · intro _
          refine ⟨[], [(foc, truncateFocus ft)], by simp, by simp, ?_⟩
          intro f hf
          simp only [List.map_cons, List.map_nil, List.mem_singleton]
          intro hc
          subst hc
          exact hfoc_rest hf
      · intro k hk
        simp at hk
        right
        exact hk
  case neg =>
    rw [show processFocus st lvl foc ft =
        (if 8000 < focusSize ft then
          { chunks := st.chunks ++ splitGo lvl foc ft [] 0,
            current := st.current, size := st.size }
         else
          { chunks := st.chunks,
            current := setFocusInChunk st.current lvl foc (truncateFocus ft),
            size := st.size + focusSize ft }) from by
      rw [processFocus]
      rw [if_neg hflush]]
    by_cases hbig : 8000 < focusSize ft
    · -- the running chunk must already be empty
      have hcur : st.current = [] := by
        by_contra hc
        exact hflush ⟨by omega, hc⟩
      rw [if_pos hbig]
      refine ⟨?_, ?_, ?_⟩
      · rw [chunksKeys_append,
          splitGo_keys lvl foc ft [] 0 hft (by intro k hk; cases hk), hcur]
        simp [treeKeys]
      · rw [hcur]
        exact ⟨List.nodup_nil, by intro h; cases h⟩
      · rw [hcur]
        intro k hk
        cases hk
    · rw [if_neg hbig]
      by_cases hmem : lvl ∈ st.current.map Prod.fst
      · obtain ⟨c₀, d, hdec, h₀, hpend⟩ := hinv.2 hmem
        have hfocd : foc ∉ d.map Prod.fst := hpend foc (by simp)
        rw [hdec, setFocusInChunk_present c₀ d lvl foc (truncateFocus ft) h₀ hfocd]
        refine ⟨?_, ?_, ?_⟩
        · show chunksKeys st.chunks ++
              treeKeys (c₀ ++ [(lvl, d ++ [(foc, truncateFocus ft)])]) =
            chunksKeys st.chunks ++ treeKeys (c₀ ++ [(lvl, d)]) ++
              List.map Prod.fst ft
          rw [treeKeys_append, treeKeys_append, treeKeys_singleton,
            treeKeys_singleton, levelKeys_append, levelKeys_singleton,
            truncateFocus_keys]
          simp
        · constructor
          · have : ((c₀ ++ [(lvl, d ++ [(foc, truncateFocus ft)])]).map Prod.fst) =
                ((c₀ ++ [(lvl, d)]).map Prod.fst) := by simp
            rw [this, ← hdec]
            exact hinv.1
          · intro _
            refine ⟨c₀, d ++ [(foc, truncateFocus ft)], rfl, h₀, ?_⟩
            intro f hf
            simp only [List.map_append, List.mem_append, List.map_cons,
              List.map_nil, List.mem_singleton, not_or]
            refine ⟨hpend f (by simp [hf]), ?_⟩
            intro hc
            subst hc
            exact hfoc_rest hf
        · intro k hk
          left
          simp only [List.map_append, List.map_cons, List.map_nil,
            List.mem_append, List.mem_singleton] at hk ⊢
          exact hk
      · rw [setFocusInChunk_absent st.current lvl foc (truncateFocus ft) hmem]
        refine ⟨?_, ?_, ?_⟩
        · rw [treeKeys_append, treeKeys_singleton, levelKeys_singleton,
            truncateFocus_keys]
          simp
        · constructor
          · simp only [List.map_append, List.map_cons, List.map_nil]
            rw [List.nodup_append]
            refine ⟨hinv.1, by simp, ?_⟩
            intro a ha hb
            simp only [List.mem_singleton] at hb
            subst hb
            exact hmem ha
          · intro _
            refine ⟨st.current, [(foc, truncateFocus ft)], rfl, hmem, ?_⟩
            intro f hf
            simp only [List.map_cons, List.map_nil, List.mem_singleton]
            intro hc
            subst hc
            exact hfoc_rest hf
        · intro k hk
          simp only [List.map_append, List.map_cons, List.map_nil,
            List.mem_append, List.mem_singleton] at hk
          exact hk

/-- The chunking loop over one level's focus groups: keys accumulate in
traversal order, and the running chunk's level keys stay distinct and
within the old ones plus the level's name. -/
theorem chunkLevel_keys (lvl : String) :
    ∀ (fps : LevelTasks) (st : ChunkState),
      ((fps.map Prod.fst).Nodup) →
      (∀ fp ∈ fps, (fp.2.map Prod.fst).Nodup) →
      LevelInv st.current lvl (fps.map Prod.fst) →
      (chunksKeys (chunkLevel st lvl fps).chunks ++
          treeKeys (chunkLevel st lvl fps).current =
        chunksKeys st.chunks ++ treeKeys st.current ++ levelKeys fps) ∧
      (((chunkLevel st lvl fps).current.map Prod.fst).Nodup) ∧
      (∀ k ∈ (chunkLevel st lvl fps).current.map Prod.fst,
        k ∈ st.current.map Prod.fst ∨ k = lvl) := by
  intro fps
  induction fps with
  | nil =>
    intro st _ _ hinv
    refine ⟨?_, hinv.1, ?_⟩
    · simp [chunkLevel, levelKeys]
    · intro k hk
      exact Or.inl hk
  | cons fp rest ih =>
    rcases fp with ⟨foc, ft⟩
    intro st hnd hfnd hinv
    have hstep := processFocus_keys st lvl foc ft (rest.map Prod.fst)
      (by simpa using hnd) hinv (hfnd (foc, ft) (by simp))
    have hlc : chunkLevel st lvl ((foc, ft) :: rest) =
        chunkLevel (processFocus st lvl foc ft) lvl rest := rfl
    have hrec := ih (processFocus st lvl foc ft)
      (by simp only [List.map_cons] at hnd; exact hnd.of_cons)
      (fun fp2 h2 => hfnd fp2 (by simp [h2]))
      hstep.2.1
    rw [hlc]
    refine ⟨?_, hrec.2.1, ?_⟩
    · rw [hrec.1, hstep.1]
      simp [levelKeys, focusKeys]
    · intro k hk
      rcases hrec.2.2 k hk with hk2 | hk2
      · exact hstep.2.2 k hk2
      · exact Or.inr hk2

/-- The chunking sweep over the levels: concatenated keys of all emitted
chunks plus the running chunk equal the traversal keys of the processed
levels, the running chunk's level keys stay distinct, and every such key
is the name of an already-processed level. -/
theorem chunkLevels_keys :
    ∀ (lvls : ResultTree) (st : ChunkState) (prev : List String),
      ((st.current.map Prod.fst).Nodup) →
      (∀ k ∈ st.current.map Prod.fst, k ∈ prev) →
      ((prev ++ lvls.map Prod.fst).Nodup) →
      (∀ lp ∈ lvls, (lp.2.map Prod.fst).Nodup) →
      (∀ lp ∈ lvls, ∀ fp ∈ lp.2, (fp.2.map Prod.fst).Nodup) →
      (chunksKeys (lvls.foldl (fun s lp => chunkLevel s lp.1 lp.2) st).chunks ++
          treeKeys (lvls.foldl (fun s lp => chunkLevel s lp.1 lp.2) st).current =
        chunksKeys st.chunks ++ treeKeys st.current ++ treeKeys lvls) ∧
      (((lvls.foldl (fun s lp => chunkLevel s lp.1 lp.2) st).current.map
          Prod.fst).Nodup) ∧
      (∀ k ∈ (lvls.foldl (fun s lp => chunkLevel s lp.1 lp.2) st).current.map
          Prod.fst, k ∈ prev ++ lvls.map Prod.fst) := by
  intro lvls
  induction lvls with
  | nil =>
    intro st prev hnodup hsub _ _ _
    refine ⟨by simp [treeKeys], hnodup, ?_⟩
    intro k hk
    simp only [List.map_nil, List.append_nil]
    exact hsub k hk
  | cons lp rest ih =>
    rcases lp with ⟨lvl, lt⟩
    intro st prev hnodup hsub hfresh hlnd hfnd
    have hlvl_prev : lvl ∉ prev := by
      rw [List.nodup_append] at hfresh
      intro hc
      exact hfresh.2.2 hc (by simp)
    have hlvl_cur : lvl ∉ st.current.map Prod.fst := by
      intro hc
      exact hlvl_prev (hsub lvl hc)
    have hlevel := chunkLevel_keys lvl lt st
      (hlnd (lvl, lt) (by simp))
      (fun fp hfp => hfnd (lvl, lt) (by simp) fp hfp)
      ⟨hnodup, fun hmem => absurd hmem hlvl_cur⟩
    have hfold : (((lvl, lt) :: rest).foldl
        (fun s lp => chunkLevel s lp.1 lp.2) st) =
        rest.foldl (fun s lp => chunkLevel s lp.1 lp.2) (chunkLevel st lvl lt) := rfl
    have hrec := ih (chunkLevel st lvl lt) (prev ++ [lvl])
      hlevel.2.1
      (by
        intro k hk
        rcases hlevel.2.2 k hk with hk2 | hk2
        · simp only [List.mem_append, List.mem_singleton]
          exact Or.inl (hsub k hk2)
        · simp [hk2])
      (by
        simp only [List.map_cons] at hfresh
        rw [List.append_assoc]
        simpa using hfresh)
      (fun lp2 h2 => hlnd lp2 (by simp [h2]))
      (fun lp2 h2 fp hfp => hfnd lp2 (by simp [h2]) fp hfp)
    rw [hfold]
    refine ⟨?_, hrec.2.1, ?_⟩
    · rw [hrec.1, hlevel.1]
      have : treeKeys ((lvl, lt) :: rest) = levelKeys lt ++ treeKeys rest := by
        simp [treeKeys]
      rw [this]
      simp
    · intro k hk
      have := hrec.2.2 k hk
      simp only [List.mem_append, List.mem_singleton, List.map_cons,
        List.mem_cons] at this ⊢
      tauto

/-- C4: chunking is order-preserving and lossless.  For every well-formed
result tree, the concatenation of the task keys of the chunks produced by
`chunk_hierarchical_results`, in chunk order, is exactly the list of task
keys of the input in its (level, focus) traversal order — every entry
lands in exactly one chunk, nothing is duplicated or dropped, and chunk
order follows the input's traversal order. -/
theorem chunk_lossless (r : ResultTree) (hwf : WFTree r) :
    chunksKeys (chunkHierarchicalResults r) = treeKeys r := by
  obtain ⟨hnd, hlnd, hfnd⟩ := hwf
  have h := chunkLevels_keys r ⟨[], [], 0⟩ []
    List.nodup_nil (by intro k hk; cases hk) (by simpa using hnd) hlnd hfnd
  rw [chunkHierarchicalResults]
  by_cases hcur : (r.foldl (fun s lp => chunkLevel s lp.1 lp.2)
      ⟨[], [], 0⟩).current = []
  · rw [if_pos hcur]
    have h1 := h.1
    rw [hcur] at h1
    simpa [chunksKeys, treeKeys] using h1
  · rw [if_neg hcur]
    rw [chunksKeys_append]
    have h1 := h.1
    simp only [chunksKeys, treeKeys, List.map_nil, List.flatten_nil,
      List.nil_append] at h1 ⊢
    rw [← h1]
    simp
    rfl

/-- C4 witness: a small two-level tree chunks into key-lossless,
order-preserving chunks. -/
theorem chunk_lossless_witness :
    chunksKeys (chunkHierarchicalResults
      [("l1", [("f1", [("k1", "aa".data)]), ("f2", [("k2", "bb".data)])]),
       ("l2", [("f3", [("k3", "cc".data)])])]) =
    treeKeys
      [("l1", [("f1", [("k1", "aa".data)]), ("f2", [("k2", "bb".data)])]),
       ("l2", [("f3", [("k3", "cc".data)])])] :=
  chunk_lossless
    [("l1", [("f1", [("k1", "aa".data)]), ("f2", [("k2", "bb".data)])]),
     ("l2", [("f3", [("k3", "cc".data)])])]
    (by refine ⟨by decide, ?_, ?_⟩ <;> decide)

/-! ## Chunk size bounds -/

/-- Total length of a list of texts. -/
def textsLen (ts : List PyText) : Nat := (ts.map List.length).sum

/-- Number of truncated (length over 1500) texts in a list. -/
def textsTruncCount (ts : List PyText) : Nat :=
  (ts.filter (fun t => 1500 < t.length)).length

/-- A chunk's stored size is the total length of its entry texts. -/
theorem storedSize_eq (c : Chunk) : storedSize c = textsLen (treeVals c) := rfl

/-- A chunk's truncation count, through its entry texts. -/
theorem truncCount_eq (c : Chunk) : truncCount c = textsTruncCount (treeVals c) := rfl

/-- `textsLen` distributes over append. -/
theorem textsLen_append (a b : List PyText) :
    textsLen (a ++ b) = textsLen a + textsLen b := by
  simp [textsLen]

/-- `textsTruncCount` distributes over append. -/
theorem textsTruncCount_append (a b : List PyText) :
    textsTruncCount (a ++ b) = textsTruncCount a + textsTruncCount b := by
  simp [textsTruncCount]

/-- Entry texts distribute over appending trees. -/
theorem treeVals_append (a b : ResultTree) :
    treeVals (a ++ b) = treeVals a ++ treeVals b := by
  simp [treeVals]

/-- Entry texts distribute over appending level maps. -/
theorem levelVals_append (a b : LevelTasks) :
    levelVals (a ++ b) = levelVals a ++ levelVals b := by
  simp [levelVals]

/-- Entry texts of a one-level chunk. -/
theorem treeVals_singleton (lvl : String) (lt : LevelTasks) :
    treeVals [(lvl, lt)] = levelVals lt := by
  simp [treeVals]

/-- Entry texts of a one-focus level. -/
theorem levelVals_singleton (foc : String) (ft : FocusTasks) :
    levelVals [(foc, ft)] = ft.map Prod.snd := by
  simp [levelVals]

/-- A text at most 1500 long is stored unchanged. -/
theorem pyTruncate_short (t : PyText) (h : t.length ≤ 1500) :
    pyTruncate t = t := by
  rw [pyTruncate, if_neg (by omega)]

/-- A text longer than 1500 is stored as its first 1500 characters plus
the three-character marker, hence with length exactly 1503. -/
theorem pyTruncate_long (t : PyText) (h : 1500 < t.length) :
    pyTruncate t = t.take 1500 ++ "...".data ∧
      (pyTruncate t).length = 1503 := by
  rw [pyTruncate, if_pos h]
  refine ⟨rfl, ?_⟩
  rw [List.length_append, List.length_take]
  have : "...".data.length = 3 := rfl
  omega

/-- Stored texts are never longer than 1503. -/
theorem pyTruncate_le_1503 (t : PyText) : (pyTruncate t).length ≤ 1503 := by
  by_cases h : 1500 < t.length
  · rw [(pyTruncate_long t h).2]
  · rw [pyTruncate_short t (by omega)]
    omega

/-- A stored text exceeds the original's length by at most 2, and only
when it is a truncated (length over 1500) text. -/
theorem pyTruncate_len_le (t : PyText) :
    (pyTruncate t).length ≤ t.length +
      2 * (if 1500 < (pyTruncate t).length then 1 else 0) := by
  by_cases h : 1500 < t.length
  · have h2 := (pyTruncate_long t h).2
    rw [h2]
    simp only [show (1500 < 1503) = True by simp, if_true]
    omega
  · rw [pyTruncate_short t (by omega)]
    split <;> omega

/-- The truncated form of a focus group stores at most the group's
untruncated size plus two characters per truncated entry. -/
theorem truncateFocus_size_le (ft : FocusTasks) :
    textsLen ((truncateFocus ft).map Prod.snd) ≤
      focusSize ft +
        2 * textsTruncCount ((truncateFocus ft).map Prod.snd) := by
  induction ft with
  | nil => simp [truncateFocus, textsLen, focusSize, textsTruncCount]
  | cons p rest ih =>
    have hstep := pyTruncate_len_le p.2
    simp only [truncateFocus, List.map_cons, focusSize] at ih ⊢
    rw [show textsLen ((pyTruncate p.2) ::
        (rest.map (fun q => (q.1, pyTruncate q.2))).map Prod.snd) =
        (pyTruncate p.2).length + textsLen
          ((rest.map (fun q => (q.1, pyTruncate q.2))).map Prod.snd) from by
      simp [textsLen]]
    rw [show textsTruncCount ((pyTruncate p.2) ::
        (rest.map (fun q => (q.1, pyTruncate q.2))).map Prod.snd) =
        (if 1500 < (pyTruncate p.2).length then 1 else 0) + textsTruncCount
          ((rest.map (fun q => (q.1, pyTruncate q.2))).map Prod.snd) from by
      by_cases h : 1500 < (pyTruncate p.2).length
      · simp [textsTruncCount, List.filter_cons, h, Nat.add_comm]
      · simp [textsTruncCount, List.filter_cons, h]]
    rw [show ((p.2.length :: rest.map (fun q => q.2.length)).sum) =
        p.2.length + (rest.map (fun q => q.2.length)).sum from by simp]
    have ih2 : textsLen ((rest.map (fun q => (q.1, pyTruncate q.2))).map Prod.snd) ≤
        (rest.map (fun q => q.2.length)).sum +
        2 * textsTruncCount ((rest.map (fun q => (q.1, pyTruncate q.2))).map Prod.snd) := by
      simpa [truncateFocus, focusSize, textsLen] using ih
    omega

/-- Every sub-chunk emitted by the split path keeps its stored size
within the budget plus two characters per truncated entry, as long as the
size counter matches the pending sub-chunk and respects that bound. -/
theorem splitGo_size (lvl foc : String) :
    ∀ (tasks temp : FocusTasks) (tsize : Nat),
      ((tasks.map Prod.fst).Nodup) →
      (∀ k ∈ temp.map Prod.fst, k ∉ tasks.map Prod.fst) →
      tsize = textsLen (temp.map Prod.snd) →
      tsize ≤ 8000 + 2 * textsTruncCount (temp.map Prod.snd) →
      ∀ c ∈ splitGo lvl foc tasks temp tsize,
        storedSize c ≤ 8000 + 2 * truncCount c := by
  intro tasks
  induction tasks with
  | nil =>
    intro temp tsize _ _ hteq htle c hc
    by_cases h : temp = []
    · rw [splitGo, if_pos h] at hc
      cases hc
    · rw [splitGo, if_neg h] at hc
      simp only [List.mem_singleton] at hc
      subst hc
      rw [storedSize_eq, truncCount_eq, treeVals_singleton, levelVals_singleton]
      omega
  | cons task rest ih =>
    rcases task with ⟨tid, tres⟩
    intro temp tsize hnd htemp hteq htle c hc
    have htid_rest : tid ∉ rest.map Prod.fst := by
      simp only [List.map_cons, List.nodup_cons] at hnd
      exact hnd.1
    have hrest_nd : (rest.map Prod.fst).Nodup := by
      simp only [List.map_cons, List.nodup_cons] at hnd
      exact hnd.2
    have htid_temp : tid ∉ temp.map Prod.fst := by
      intro hcon
      exact htemp tid hcon (by simp)
    by_cases hfl : 8000 < tsize + tres.length ∧ temp ≠ []
    · rw [splitGo, if_pos hfl] at hc
      rcases List.mem_cons.mp hc with hc1 | hc1
      · subst hc1
        rw [storedSize_eq, truncCount_eq, treeVals_singleton, levelVals_singleton]
        omega
      · refine ih (assocSet tid (pyTruncate tres) []) (0 + (pyTruncate tres).length)
          hrest_nd ?_ ?_ ?_ c hc1
        · intro k hk
          simp only [assocSet, List.map_cons, List.map_nil,
            List.mem_singleton] at hk
          subst hk
          exact htid_rest
        · simp [assocSet, textsLen]
        · have := pyTruncate_le_1503 tres
          omega
    · rw [splitGo, if_neg hfl] at hc
      have hset : assocSet tid (pyTruncate tres) temp = temp ++ [(tid, pyTruncate tres)] :=
        assocSet_not_mem tid (pyTruncate tres) temp htid_temp
      refine ih (assocSet tid (pyTruncate tres) temp)
        (tsize + (pyTruncate tres).length) hrest_nd ?_ ?_ ?_ c hc
      · intro k hk
        rw [hset] at hk
        simp only [List.map_append, List.mem_append, List.map_cons,
          List.map_nil, List.mem_singleton] at hk
        rcases hk with hk | hk
        · intro hcon
          exact htemp k hk (by simp [hcon])
        · subst hk
          exact htid_rest
      · rw [hset]
        simp only [List.map_append, textsLen_append, List.map_cons, List.map_nil]
        rw [hteq]
        simp [textsLen]
      · rw [hset]
        have hcnt : textsTruncCount ((temp ++ [(tid, pyTruncate tres)]).map Prod.snd) =
            textsTruncCount (temp.map Prod.snd) +
              (if 1500 < (pyTruncate tres).length then 1 else 0) := by
          simp only [List.map_append, textsTruncCount_append, List.map_cons,
            List.map_nil]
          congr 1
          by_cases h : 1500 < (pyTruncate tres).length
          · simp [textsTruncCount, List.filter_cons, h]
          · simp [textsTruncCount, List.filter_cons, h]
        rw [hcnt]
        have hstep := pyTruncate_len_le tres
        have h1503 := pyTruncate_le_1503 tres
        rcases not_and_or.mp hfl with h | h
        · have hle : tsize + tres.length ≤ 8000 := by omega
          by_cases hsp : 1500 < (pyTruncate tres).length
          · rw [if_pos hsp] at hstep ⊢
            omega
          · rw [if_neg hsp] at hstep ⊢
            omega
        · have htemp0 : temp = [] := by
            by_contra hcon
            exact h hcon
          subst htemp0
          simp only [List.map_nil, textsLen, List.sum_nil] at hteq
          by_cases hsp : 1500 < (pyTruncate tres).length
          · rw [if_pos hsp]
            omega
          · rw [if_neg hsp]
            omega

/-- Adding a focus group appends its entry texts to the running chunk's,
in either the fresh-level or last-level case. -/
theorem setFocusInChunk_vals (c : Chunk) (lvl foc : String) (ts : FocusTasks)
    (hcase : lvl ∉ c.map Prod.fst ∨
      ∃ c₀ d, c = c₀ ++ [(lvl, d)] ∧ lvl ∉ c₀.map Prod.fst ∧
        foc ∉ d.map Prod.fst) :
    treeVals (setFocusInChunk c lvl foc ts) = treeVals c ++ ts.map Prod.snd := by
  rcases hcase with habs | ⟨c₀, d, hdec, h₀, hfoc⟩
  · rw [setFocusInChunk_absent c lvl foc ts habs, treeVals_append,
      treeVals_singleton, levelVals_singleton]
  · rw [hdec, setFocusInChunk_present c₀ d lvl foc ts h₀ hfoc,
      treeVals_append, treeVals_append, treeVals_singleton, treeVals_singleton,
      levelVals_append, levelVals_singleton]
    simp

/-- The running-chunk stays non-empty after adding a focus group. -/
theorem setFocusInChunk_ne_nil (c : Chunk) (lvl foc : String) (ts : FocusTasks) :
    setFocusInChunk c lvl foc ts ≠ [] := by
  rw [setFocusInChunk]
  generalize assocSet foc ts ((assocFind? lvl c).getD []) = L
  induction c with
  | nil => simp [assocSet]
  | cons p rest ih =>
    rw [assocSet]
    split
    · simp
    · simp

/-- Size invariant of the chunking sweep: an empty running chunk has a
zero size counter, the counter (which tracks untruncated sizes) never
exceeds the budget, the running chunk's stored size is within the counter
plus two characters per truncated entry, and every emitted chunk is
within the budget plus two characters per truncated entry. -/
def SizeInv (st : ChunkState) : Prop :=
  (st.current = [] → st.size = 0) ∧
  st.size ≤ 8000 ∧
  storedSize st.current ≤ st.size + 2 * truncCount st.current ∧
  ∀ c ∈ st.chunks, storedSize c ≤ 8000 + 2 * truncCount c

/-- One step of the chunking loop preserves the size invariant. -/
theorem processFocus_size (st : ChunkState) (lvl foc : String) (ft : FocusTasks)
    (restKeys : List String)
    (hinv : LevelInv st.current lvl (foc :: restKeys))
    (hft : (ft.map Prod.fst).Nodup)
    (hs : SizeInv st) :
    SizeInv (processFocus st lvl foc ft) := by
  obtain ⟨hz, hle, hcur, hch⟩ := hs
  have hflushed_bound : storedSize st.current ≤ 8000 + 2 * truncCount st.current := by
    omega
  have hts := truncateFocus_size_le ft
  by_cases hflush : 8000 < st.size + focusSize ft ∧ st.current ≠ []
  case pos =>
    rw [show processFocus st lvl foc ft =
        (if 8000 < focusSize ft then
          { chunks := (st.chunks ++ [st.current]) ++ splitGo lvl foc ft [] 0,
            current := ([] : Chunk), size := 0 }
         else
          { chunks := st.chunks ++ [st.current],
            current := setFocusInChunk [] lvl foc (truncateFocus ft),
            size := 0 + focusSize ft }) from by
      rw [processFocus, if_pos hflush]]
    by_cases hbig : 8000 < focusSize ft
    · rw [if_pos hbig]
      refine ⟨fun _ => rfl, ?_, ?_, ?_⟩
      · show (0 : Nat) ≤ 8000
        omega
      · show storedSize [] ≤ 0 + 2 * truncCount []
        simp [storedSize, treeVals, textsLen]
      · intro c hc
        simp only [List.mem_append] at hc
        rcases hc with (hc | hc) | hc
        · exact hch c hc
        · simp only [List.mem_singleton] at hc
          subst hc
          exact hflushed_bound
        · exact splitGo_size lvl foc ft [] 0 hft (by intro k hk; cases hk)
            (by simp [textsLen]) (by omega) c hc
    · rw [if_neg hbig]
      rw [setFocusInChunk_absent [] lvl foc (truncateFocus ft) (by intro h; cases h)]
      refine ⟨?_, ?_, ?_, ?_⟩
      · intro h
        cases h
      · show 0 + focusSize ft ≤ 8000
        omega
      · show storedSize ([] ++ [(lvl, [(foc, truncateFocus ft)])]) ≤
          (0 + focusSize ft) + 2 * truncCount ([] ++ [(lvl, [(foc, truncateFocus ft)])])
        rw [List.nil_append, storedSize_eq, truncCount_eq, treeVals_singleton,
          levelVals_singleton]
        omega
      · intro c hc
        simp only [List.mem_append, List.mem_singleton] at hc
        rcases hc with hc | hc
        · exact hch c hc
        · subst hc
          exact hflushed_bound
  case neg =>
    rw [show processFocus st lvl foc ft =
        (if 8000 < focusSize ft then
          { chunks := st.chunks ++ splitGo lvl foc ft [] 0,
            current := st.current, size := st.size }
         else
          { chunks := st.chunks,
            current := setFocusInChunk st.current lvl foc (truncateFocus ft),
            size := st.size + focusSize ft }) from by
      rw [processFocus, if_neg hflush]]
    by_cases hbig : 8000 < focusSize ft
    · have hcur0 : st.current = [] := by
        by_contra hc
        exact hflush ⟨by omega, hc⟩
      rw [if_pos hbig]
      refine ⟨fun _ => hz hcur0, ?_, hcur, ?_⟩
      · show st.size ≤ 8000
        omega
      · intro c hc
        simp only [List.mem_append] at hc
        rcases hc with hc | hc
        · exact hch c hc
        · exact splitGo_size lvl foc ft [] 0 hft (by intro k hk; cases hk)
            (by simp [textsLen]) (by omega) c hc
    · rw [if_neg hbig]
      have hsize2 : st.size + focusSize ft ≤ 8000 := by
        rcases not_and_or.mp hflush with h | h
        · omega
        · have hcur0 : st.current = [] := by
            by_contra hc
            exact h hc
          have := hz hcur0
          omega
      have hvals : treeVals (setFocusInChunk st.current lvl foc (truncateFocus ft)) =
          treeVals st.current ++ (truncateFocus ft).map Prod.snd := by
        apply setFocusInChunk_vals
        by_cases hmem : lvl ∈ st.current.map Prod.fst
        · right
          obtain ⟨c₀, d, hdec, h₀, hpend⟩ := hinv.2 hmem
          exact ⟨c₀, d, hdec, h₀, hpend foc (by simp)⟩
        · left
          exact hmem
      refine ⟨?_, hsize2, ?_, hch⟩
      · intro h
        exact absurd h (setFocusInChunk_ne_nil st.current lvl foc (truncateFocus ft))
      · show storedSize (setFocusInChunk st.current lvl foc (truncateFocus ft)) ≤
          (st.size + focusSize ft) +
            2 * truncCount (setFocusInChunk st.current lvl foc (truncateFocus ft))
        rw [storedSize_eq, truncCount_eq, hvals, textsLen_append,
          textsTruncCount_append, ← storedSize_eq, ← truncCount_eq]
        omega

/-- The chunking loop over one level's focus groups preserves the size
invariant. -/
theorem chunkLevel_size (lvl : String) :
    ∀ (fps : LevelTasks) (st : ChunkState),
      ((fps.map Prod.fst).Nodup) →
      (∀ fp ∈ fps, (fp.2.map Prod.fst).Nodup) →
      LevelInv st.current lvl (fps.map Prod.fst) →
      SizeInv st →
      SizeInv (chunkLevel st lvl fps) := by
  intro fps
  induction fps with
  | nil =>
    intro st _ _ _ hs
    exact hs
  | cons fp rest ih =>
    rcases fp with ⟨foc, ft⟩
    intro st hnd hfnd hinv hs
    have hstep := processFocus_keys st lvl foc ft (rest.map Prod.fst)
      (by simpa using hnd) hinv (hfnd (foc, ft) (by simp))
    have hsize := processFocus_size st lvl foc ft (rest.map Prod.fst)
      hinv (hfnd (foc, ft) (by simp)) hs
    exact ih (processFocus st lvl foc ft)
      (by simp only [List.map_cons] at hnd; exact hnd.of_cons)
      (fun fp2 h2 => hfnd fp2 (by simp [h2]))
      hstep.2.1 hsize

/-- The chunking sweep over the levels preserves the size invariant. -/
theorem chunkLevels_size :
    ∀ (lvls : ResultTree) (st : ChunkState) (prev : List String),
      ((st.current.map Prod.fst).Nodup) →
      (∀ k ∈ st.current.map Prod.fst, k ∈ prev) →
      ((prev ++ lvls.map Prod.fst).Nodup) →
      (∀ lp ∈ lvls, (lp.2.map Prod.fst).Nodup) →
      (∀ lp ∈ lvls, ∀ fp ∈ lp.2, (fp.2.map Prod.fst).Nodup) →
      SizeInv st →
      SizeInv (lvls.foldl (fun s lp => chunkLevel s lp.1 lp.2) st) := by
  intro lvls
  induction lvls with
  | nil =>
    intro st prev _ _ _ _ _ hs
    exact hs
  | cons lp rest ih =>
    rcases lp with ⟨lvl, lt⟩
    intro st prev hnodup hsub hfresh hlnd hfnd hs
    have hlvl_prev : lvl ∉ prev := by
      rw [List.nodup_append] at hfresh
      intro hc
      exact hfresh.2.2 hc (by simp)
    have hlvl_cur : lvl ∉ st.current.map Prod.fst := by
      intro hc
      exact hlvl_prev (hsub lvl hc)
    have hkeys := chunkLevel_keys lvl lt st
      (hlnd (lvl, lt) (by simp))
      (fun fp hfp => hfnd (lvl, lt) (by simp) fp hfp)
      ⟨hnodup, fun hmem => absurd hmem hlvl_cur⟩
    have hsize := chunkLevel_size lvl lt st
      (hlnd (lvl, lt) (by simp))
      (fun fp hfp => hfnd (lvl, lt) (by simp) fp hfp)
      ⟨hnodup, fun hmem => absurd hmem hlvl_cur⟩
      hs
    exact ih (chunkLevel st lvl lt) (prev ++ [lvl])
      hkeys.2.1
      (by
        intro k hk
        rcases hkeys.2.2 k hk with hk2 | hk2
        · simp only [List.mem_append, List.mem_singleton]
          exact Or.inl (hsub k hk2)
        · simp [hk2])
      (by
        simp only [List.map_cons] at hfresh
        rw [List.append_assoc]
        simpa using hfresh)
      (fun lp2 h2 => hlnd lp2 (by simp [h2]))
      (fun lp2 h2 fp hfp => hfnd lp2 (by simp [h2]) fp hfp)
      hsize

/-- C5 amended: for every well-formed result tree, every chunk produced
by `chunk_hierarchical_results` — running-accumulator chunks and
split-path sub-chunks alike — has stored size at most the 8000 budget
plus two characters per truncated entry it holds.  The plain 8000 bound
of the claim does not hold (see the counterexample): the flush guards
compare untruncated sizes while the chunks store truncated texts, and
truncation lengthens a 1501- or 1502-character text to 1503. -/
theorem chunk_size_bound (r : ResultTree) (hwf : WFTree r) :
    ∀ c ∈ chunkHierarchicalResults r,
      storedSize c ≤ 8000 + 2 * truncCount c := by
  obtain ⟨hnd, hlnd, hfnd⟩ := hwf
  have h := chunkLevels_size r ⟨[], [], 0⟩ []
    List.nodup_nil (by intro k hk; cases hk) (by simpa using hnd) hlnd hfnd
    ⟨fun _ => rfl, by show (0 : Nat) ≤ 8000; omega,
      by show storedSize [] ≤ 0 + 2 * truncCount []; simp [storedSize, treeVals, textsLen],
      by intro c hc; cases hc⟩
  intro c hc
  rw [chunkHierarchicalResults] at hc
  by_cases hcur : (r.foldl (fun s lp => chunkLevel s lp.1 lp.2)
      ⟨[], [], 0⟩).current = []
  · rw [if_pos hcur] at hc
    exact h.2.2.2 c hc
  · rw [if_neg hcur] at hc
    simp only [List.mem_append, List.mem_singleton] at hc
    rcases hc with hc | hc
    · exact h.2.2.2 c hc
    · subst hc
      have := h.2.2.1
      have := h.2.1
      omega

/-- C5 witness: the amended bound at a small concrete tree, whose single
emitted chunk is the (short, hence untruncated) tree itself. -/
theorem chunk_size_bound_witness :
    storedSize [("l1", [("f1", [("k1", "aa".data)]),
      ("f2", [("k2", "bb".data)])])] ≤
      8000 + 2 * truncCount [("l1", [("f1", [("k1", "aa".data)]),
        ("f2", [("k2", "bb".data)])])] :=
  chunk_size_bound
    [("l1", [("f1", [("k1", "aa".data)]), ("f2", [("k2", "bb".data)])])]
    (by refine ⟨by decide, ?_, ?_⟩ <;> decide)
    [("l1", [("f1", [("k1", "aa".data)]), ("f2", [("k2", "bb".data)])])]
    (by decide)

/-- The concrete tree of the C5 counterexample: one level with a focus
group of seven texts (four of 1501 characters, then 486, 1501, 1000) and
a focus group of five 3000-character texts; both groups exceed the budget
untruncated, so both take the split path. -/
def sizeCounterexampleTree : ResultTree :=
  [("l", [("A", [("t1", List.replicate 1501 'a'), ("t2", List.replicate 1501 'a'),
                 ("t3", List.replicate 1501 'a'), ("t4", List.replicate 1501 'a'),
                 ("t5", List.replicate 486 'a'), ("t6", List.replicate 1501 'a'),
                 ("t7", List.replicate 1000 'a')]),
          ("B", [("c1", List.replicate 3000 'a'), ("c2", List.replicate 3000 'a'),
                 ("c3", List.replicate 3000 'a'), ("c4", List.replicate 3000 'a'),
                 ("c5", List.replicate 3000 'a')])])]

set_option maxRecDepth 40000 in
/-- C5 counterexample to the claim as stated: on
`sizeCounterexampleTree` the produced chunks have stored sizes
`[8001, 1000, 6012, 1503]` — the first split-path sub-chunk stores
8001 > 8000 characters, because the split guard compares its counter
against untruncated entry sizes while 1501-character texts are stored as
1503 characters.  So not every chunk is within the 8000 budget.  (The
third chunk shows the guard breaking the other way: its four stored
texts of 1503 characters stand for 12000 untruncated characters.) -/
theorem chunk_budget_counterexample :
    (chunkHierarchicalResults sizeCounterexampleTree).map storedSize =
      [8001, 1000, 6012, 1503] ∧
    ¬ (∀ c ∈ chunkHierarchicalResults sizeCounterexampleTree,
        storedSize c ≤ 8000) := by
  have hmap : (chunkHierarchicalResults sizeCounterexampleTree).map storedSize =
      [8001, 1000, 6012, 1503] := by
    simp [sizeCounterexampleTree, chunkHierarchicalResults, chunkLevel,
      processFocus, splitGo, setFocusInChunk, assocSet, assocFind?, focusSize,
      truncateFocus, pyTruncate, storedSize, treeVals, levelVals, textsLen,
      List.take_replicate, -List.reduceReplicate]
  refine ⟨hmap, ?_⟩
  intro hall
  have hmem : (8001 : Nat) ∈
      (chunkHierarchicalResults sizeCounterexampleTree).map storedSize := by
    rw [hmap]
    simp
  obtain ⟨c, hc, hcs⟩ := List.mem_map.mp hmem
  have := hall c hc
  omega

/-! ## Entry-text provenance (truncation of stored texts) -/

/-- A dict assignment adds at most the assigned value to the value set. -/
theorem assocSet_vals_sub (k : String) (v : β) :
    ∀ (l : List (String × β)) (x : β), x ∈ (assocSet k v l).map Prod.snd →
      x ∈ l.map Prod.snd ∨ x = v := by
  intro l
  induction l with
  | nil =>
    intro x hx
    simp only [assocSet, List.map_cons, List.map_nil, List.mem_singleton] at hx
    exact Or.inr hx
  | cons p rest ih =>
    intro x hx
    rw [assocSet] at hx
    split at hx
    · simp only [List.map_cons, List.mem_cons] at hx ⊢
      rcases hx with hx | hx
      · exact Or.inr hx
      · exact Or.inl (Or.inr hx)
    · simp only [List.map_cons, List.mem_cons] at hx ⊢
      rcases hx with hx | hx
      · exact Or.inl (Or.inl hx)
      · rcases ih x hx with h | h
        · exact Or.inl (Or.inr h)
        · exact Or.inr h

/-- A successful dict lookup returns one of the stored values. -/
theorem assocFind?_mem (k : String) :
    ∀ (l : List (String × β)) (d : β), assocFind? k l = some d →
      d ∈ l.map Prod.snd := by
  intro l
  induction l with
  | nil => intro d h; cases h
  | cons p rest ih =>
    intro d h
    rw [assocFind?] at h
    split at h
    · cases h
      simp
    · simp only [List.map_cons, List.mem_cons]
      exact Or.inr (ih d h)

/-- Texts of a member level map are texts of the tree. -/
theorem treeVals_of_mem (c : Chunk) (lt : LevelTasks)
    (hlt : lt ∈ c.map Prod.snd) (x : PyText) (hx : x ∈ levelVals lt) :
    x ∈ treeVals c := by
  simp only [List.mem_map] at hlt
  obtain ⟨p, hp, hpe⟩ := hlt
  simp only [treeVals, List.mem_flatten, List.mem_map]
  exact ⟨levelVals lt, ⟨p, hp, by rw [hpe]⟩, hx⟩

/-- Texts of a member focus group are texts of the level. -/
theorem levelVals_of_mem (lt : LevelTasks) (ft : FocusTasks)
    (hft : ft ∈ lt.map Prod.snd) (x : PyText) (hx : x ∈ ft.map Prod.snd) :
    x ∈ levelVals lt := by
  simp only [List.mem_map] at hft
  obtain ⟨p, hp, hpe⟩ := hft
  simp only [levelVals, List.mem_flatten, List.mem_map]
  exact ⟨ft.map Prod.snd, ⟨p, hp, by rw [hpe]⟩, hx⟩

/-- A tree-level dict assignment adds at most the assigned level's texts. -/
theorem assocSet_treeVals_sub (lvl : String) (L : LevelTasks) :
    ∀ (c : Chunk) (x : PyText), x ∈ treeVals (assocSet lvl L c) →
      x ∈ treeVals c ∨ x ∈ levelVals L := by
  intro c
  induction c with
  | nil =>
    intro x hx
    rw [show assocSet lvl L ([] : Chunk) = [(lvl, L)] from rfl,
      treeVals_singleton] at hx
    exact Or.inr hx
  | cons p rest ih =>
    intro x hx
    rw [assocSet] at hx
    split at hx
    · rw [show ((lvl, L) :: rest : Chunk) = [(lvl, L)] ++ rest from rfl,
        treeVals_append, treeVals_singleton] at hx
      rcases List.mem_append.mp hx with hx | hx
      · exact Or.inr hx
      · left
        rw [show (p :: rest : Chunk) = [p] ++ rest from rfl, treeVals_append]
        exact List.mem_append.mpr (Or.inr hx)
    · rw [show (p :: assocSet lvl L rest : Chunk) = [p] ++ assocSet lvl L rest
        from rfl, treeVals_append] at hx
      rcases List.mem_append.mp hx with hx | hx
      · left
        rw [show (p :: rest : Chunk) = [p] ++ rest from rfl, treeVals_append]
        exact List.mem_append.mpr (Or.inl hx)
      · rcases ih x hx with h | h
        · left
          rw [show (p :: rest : Chunk) = [p] ++ rest from rfl, treeVals_append]
          exact List.mem_append.mpr (Or.inr h)
        · exact Or.inr h

/-- A level-map dict assignment adds at most the assigned group's texts. -/
theorem assocSet_levelVals_sub (foc : String) (ts : FocusTasks) :
    ∀ (d : LevelTasks) (x : PyText), x ∈ levelVals (assocSet foc ts d) →
      x ∈ levelVals d ∨ x ∈ ts.map Prod.snd := by
  intro d
  induction d with
  | nil =>
    intro x hx
    rw [show assocSet foc ts ([] : LevelTasks) = [(foc, ts)] from rfl,
      levelVals_singleton] at hx
    exact Or.inr hx
  | cons p rest ih =>
    intro x hx
    rw [assocSet] at hx
    split at hx
    · rw [show ((foc, ts) :: rest : LevelTasks) = [(foc, ts)] ++ rest from rfl,
        levelVals_append, levelVals_singleton] at hx
      rcases List.mem_append.mp hx with hx | hx
      · exact Or.inr hx
      · left
        rw [show (p :: rest : LevelTasks) = [p] ++ rest from rfl, levelVals_append]
        exact List.mem_append.mpr (Or.inr hx)
    · rw [show (p :: assocSet foc ts rest : LevelTasks) = [p] ++ assocSet foc ts rest
        from rfl, levelVals_append] at hx
      rcases List.mem_append.mp hx with hx | hx
      · left
        rw [show (p :: rest : LevelTasks) = [p] ++ rest from rfl, levelVals_append]
        exact List.mem_append.mpr (Or.inl hx)
      · rcases ih x hx with h | h
        · left
          rw [show (p :: rest : LevelTasks) = [p] ++ rest from rfl, levelVals_append]
          exact List.mem_append.mpr (Or.inr h)
        · exact Or.inr h

/-- Adding a focus group to the running chunk adds at most that group's
texts. -/
theorem setFocusInChunk_vals_sub (c : Chunk) (lvl foc : String)
    (ts : FocusTasks) (x : PyText)
    (hx : x ∈ treeVals (setFocusInChunk c lvl foc ts)) :
    x ∈ treeVals c ∨ x ∈ ts.map Prod.snd := by
  rw [setFocusInChunk] at hx
  rcases assocSet_treeVals_sub lvl _ c x hx with h | h
  · exact Or.inl h
  · rcases assocSet_levelVals_sub foc ts _ x h with h2 | h2
    · match hfind : assocFind? lvl c with
      | none =>
        rw [hfind] at h2
        cases h2
      | some d =>
        rw [hfind] at h2
        exact Or.inl (treeVals_of_mem c d (assocFind?_mem lvl c d hfind) x h2)
    · exact Or.inr h2

/-- The truncated focus group's texts are the truncations of the group's
texts. -/
theorem truncateFocus_vals (ft : FocusTasks) :
    (truncateFocus ft).map Prod.snd = (ft.map Prod.snd).map pyTruncate := by
  simp [truncateFocus]

/-- Every text of a split-path sub-chunk is a pending text or the
truncation of one of the remaining entries' texts. -/
theorem splitGo_vals_sub (lvl foc : String) :
    ∀ (tasks temp : FocusTasks) (tsize : Nat) (c : Chunk) (x : PyText),
      c ∈ splitGo lvl foc tasks temp tsize → x ∈ treeVals c →
      x ∈ temp.map Prod.snd ∨ ∃ s ∈ tasks.map Prod.snd, x = pyTruncate s := by
  intro tasks
  induction tasks with
  | nil =>
    intro temp tsize c x hc hx
    by_cases h : temp = []
    · rw [splitGo, if_pos h] at hc
      cases hc
    · rw [splitGo, if_neg h] at hc
      simp only [List.mem_singleton] at hc
      subst hc
      rw [treeVals_singleton, levelVals_singleton] at hx
      exact Or.inl hx
  | cons task rest ih =>
    rcases task with ⟨tid, tres⟩
    intro temp tsize c x hc hx
    have hweak : ∀ temp' tsize', c ∈ splitGo lvl foc rest
        (assocSet tid (pyTruncate tres) temp') tsize' →
        (∀ y ∈ temp'.map Prod.snd, y ∈ temp.map Prod.snd) →
        x ∈ temp.map Prod.snd ∨
          ∃ s ∈ ((tid, tres) :: rest).map Prod.snd, x = pyTruncate s := by
      intro temp' tsize' hcrec hsub
      rcases ih (assocSet tid (pyTruncate tres) temp') tsize' c x hcrec hx with h | h
      · rcases assocSet_vals_sub tid (pyTruncate tres) temp' x h with h2 | h2
        · exact Or.inl (hsub x h2)
        · exact Or.inr ⟨tres, by simp, h2⟩
      · obtain ⟨s, hs, hse⟩ := h
        exact Or.inr ⟨s, by simp [hs], hse⟩
    by_cases hfl : 8000 < tsize + tres.length ∧ temp ≠ []
    · rw [splitGo, if_pos hfl] at hc
      rcases List.mem_cons.mp hc with hc1 | hc1
      · subst hc1
        rw [treeVals_singleton, levelVals_singleton] at hx
        exact Or.inl hx
      · exact hweak [] _ hc1 (by intro y hy; cases hy)
    · rw [splitGo, if_neg hfl] at hc
      exact hweak temp _ hc (fun y hy => hy)

/-- Provenance invariant of the chunking sweep relative to a pool of
source texts: every text in the running chunk or an emitted chunk is the
truncation of some pool text. -/
def ValsInv (pool : List PyText) (st : ChunkState) : Prop :=
  (∀ x ∈ treeVals st.current, ∃ s ∈ pool, x = pyTruncate s) ∧
  (∀ c ∈ st.chunks, ∀ x ∈ treeVals c, ∃ s ∈ pool, x = pyTruncate s)

/-- One step of the chunking loop preserves the provenance invariant. -/
theorem processFocus_vals_inv (pool : List PyText) (st : ChunkState)
    (lvl foc : String) (ft : FocusTasks)
    (hft : ∀ x ∈ ft.map Prod.snd, x ∈ pool)
    (hv : ValsInv pool st) :
    ValsInv pool (processFocus st lvl foc ft) := by
  obtain ⟨hcur, hch⟩ := hv
  have htrunc : ∀ x ∈ (truncateFocus ft).map Prod.snd,
      ∃ s ∈ pool, x = pyTruncate s := by
    intro x hx
    rw [truncateFocus_vals] at hx
    obtain ⟨s, hs, hse⟩ := List.mem_map.mp hx
    exact ⟨s, hft s hs, hse.symm⟩
  have hsplit : ∀ c ∈ splitGo lvl foc ft [] 0, ∀ x ∈ treeVals c,
      ∃ s ∈ pool, x = pyTruncate s := by
    intro c hc x hx
    rcases splitGo_vals_sub lvl foc ft [] 0 c x hc hx with h | h
    · simp at h
    · obtain ⟨s, hs, hse⟩ := h
      exact ⟨s, hft s hs, hse⟩
  by_cases hflush : 8000 < st.size + focusSize ft ∧ st.current ≠ []
  case pos =>
    rw [show processFocus st lvl foc ft =
        (if 8000 < focusSize ft then
          { chunks := (st.chunks ++ [st.current]) ++ splitGo lvl foc ft [] 0,
            current := ([] : Chunk), size := 0 }
         else
          { chunks := st.chunks ++ [st.current],
            current := setFocusInChunk [] lvl foc (truncateFocus ft),
            size := 0 + focusSize ft }) from by
      rw [processFocus, if_pos hflush]]
    by_cases hbig : 8000 < focusSize ft
    · rw [if_pos hbig]
      refine ⟨?_, ?_⟩
      · intro x hx
        cases hx
      · intro c hc
        simp only [List.mem_append] at hc
        rcases hc with (hc | hc) | hc
        · exact hch c hc
        · simp only [List.mem_singleton] at hc
          subst hc
          exact hcur
        · exact hsplit c hc
    · rw [if_neg hbig]
      refine ⟨?_, ?_⟩
      · intro x hx
        rcases setFocusInChunk_vals_sub [] lvl foc (truncateFocus ft) x hx with h | h
        · cases h
        · exact htrunc x h
      · intro c hc
        simp only [List.mem_append, List.mem_singleton] at hc
        rcases hc with hc | hc
        · exact hch c hc
        · subst hc
          exact hcur
  case neg =>
    rw [show processFocus st lvl foc ft =
        (if 8000 < focusSize ft then
          { chunks := st.chunks ++ splitGo lvl foc ft [] 0,
            current := st.current, size := st.size }
         else
          { chunks := st.chunks,
            current := setFocusInChunk st.current lvl foc (truncateFocus ft),
            size := st.size + focusSize ft }) from by
      rw [processFocus, if_neg hflush]]
    by_cases hbig : 8000 < focusSize ft
    · rw [if_pos hbig]
      refine ⟨hcur, ?_⟩
      intro c hc
      simp only [List.mem_append] at hc
      rcases hc with hc | hc
      · exact hch c hc
      · exact hsplit c hc
    · rw [if_neg hbig]
      refine ⟨?_, hch⟩
      intro x hx
      rcases setFocusInChunk_vals_sub st.current lvl foc (truncateFocus ft) x hx
        with h | h
      · exact hcur x h
      · exact htrunc x h

/-- The chunking loop over one level preserves the provenance invariant. -/
theorem chunkLevel_vals_inv (pool : List PyText) (lvl : String) :
    ∀ (fps : LevelTasks) (st : ChunkState),
      (∀ fp ∈ fps, ∀ x ∈ fp.2.map Prod.snd, x ∈ pool) →
      ValsInv pool st →
      ValsInv pool (chunkLevel st lvl fps) := by
  intro fps
  induction fps with
  | nil => intro st _ hv; exact hv
  | cons fp rest ih =>
    intro st hft hv
    exact ih (processFocus st lvl fp.1 fp.2)
      (fun fp2 h2 => hft fp2 (by simp [h2]))
      (processFocus_vals_inv pool st lvl fp.1 fp.2
        (hft fp (by simp)) hv)

/-- The chunking sweep preserves the provenance invariant. -/
theorem chunkLevels_vals_inv (pool : List PyText) :
    ∀ (lvls : ResultTree) (st : ChunkState),
      (∀ lp ∈ lvls, ∀ fp ∈ lp.2, ∀ x ∈ fp.2.map Prod.snd, x ∈ pool) →
      ValsInv pool st →
      ValsInv pool (lvls.foldl (fun s lp => chunkLevel s lp.1 lp.2) st) := by
  intro lvls
  induction lvls with
  | nil => intro st _ hv; exact hv
  | cons lp rest ih =>
    intro st hft hv
    exact ih (chunkLevel st lp.1 lp.2)
      (fun lp2 h2 => hft lp2 (by simp [h2]))
      (chunkLevel_vals_inv pool lp.1 lp.2 st (hft lp (by simp)) hv)

/-- C9 amended: every task entry text stored in any chunk produced by
`chunk_hierarchical_results` is the truncation of one of the input's
entry texts, hence has length at most 1503; a text of at most 1500
characters is stored unchanged, a longer text is cut to its first 1500
characters with the three-character marker appended (stored length
exactly 1503); the stored text is strictly longer than the original for
originals of length 1501 and 1502, while an original of length exactly
1503 keeps its length (its content still changes). -/
theorem chunk_entry_truncation (r : ResultTree) (c : Chunk)
    (hc : c ∈ chunkHierarchicalResults r) (t : PyText) (ht : t ∈ treeVals c) :
    (∃ s ∈ treeVals r, t = pyTruncate s) ∧
    t.length ≤ 1503 ∧
    (∀ s : PyText,
      (s.length ≤ 1500 → pyTruncate s = s) ∧
      (1500 < s.length →
        pyTruncate s = s.take 1500 ++ "...".data ∧
        (pyTruncate s).length = 1503) ∧
      (1501 ≤ s.length → s.length ≤ 1502 → s.length < (pyTruncate s).length) ∧
      (s.length = 1503 → (pyTruncate s).length = s.length)) := by
  have hpool : ∀ lp ∈ r, ∀ fp ∈ lp.2, ∀ x ∈ fp.2.map Prod.snd, x ∈ treeVals r := by
    intro lp hlp fp hfp x hx
    refine treeVals_of_mem r lp.2 ?_ x (levelVals_of_mem lp.2 fp.2 ?_ x hx)
    · exact List.mem_map.mpr ⟨lp, hlp, rfl⟩
    · exact List.mem_map.mpr ⟨fp, hfp, rfl⟩
  have hinv := chunkLevels_vals_inv (treeVals r) r ⟨[], [], 0⟩ hpool
    (by
      constructor
      · intro x hx
        simp [treeVals] at hx
      · intro c2 hc2
        cases hc2)
  have hmem : ∃ s ∈ treeVals r, t = pyTruncate s := by
    rw [chunkHierarchicalResults] at hc
    by_cases hcur : (r.foldl (fun s lp => chunkLevel s lp.1 lp.2)
        ⟨[], [], 0⟩).current = []
    · rw [if_pos hcur] at hc
      exact hinv.2 c hc t ht
    · rw [if_neg hcur] at hc
      simp only [List.mem_append, List.mem_singleton] at hc
      rcases hc with hc | hc
      · exact hinv.2 c hc t ht
      · subst hc
        exact hinv.1 t ht
  refine ⟨hmem, ?_, ?_⟩
  · obtain ⟨s, _, hse⟩ := hmem
    rw [hse]
    exact pyTruncate_le_1503 s
  · intro s
    refine ⟨pyTruncate_short s, pyTruncate_long s, ?_, ?_⟩
    · intro h1 h2
      rw [(pyTruncate_long s (by omega)).2]
      omega
    · intro h
      rw [(pyTruncate_long s (by omega)).2, h]

/-- C9 witness: the amended statement at a concrete one-entry tree whose
text is stored unchanged. -/
theorem chunk_entry_truncation_witness :
    (∃ s ∈ treeVals [("l", [("f", [("k", "ab".data)])])],
      "ab".data = pyTruncate s) ∧
    ("ab".data : PyText).length ≤ 1503 ∧
    (∀ s : PyText,
      (s.length ≤ 1500 → pyTruncate s = s) ∧
      (1500 < s.length →
        pyTruncate s = s.take 1500 ++ "...".data ∧
        (pyTruncate s).length = 1503) ∧
      (1501 ≤ s.length → s.length ≤ 1502 → s.length < (pyTruncate s).length) ∧
      (s.length = 1503 → (pyTruncate s).length = s.length)) :=
  chunk_entry_truncation [("l", [("f", [("k", "ab".data)])])]
    [("l", [("f", [("k", "ab".data)])])] (by decide) "ab".data (by decide)

/-- C9 counterexample to the claim as stated: an original text of exactly
1503 characters lies in the claimed 1501-1503 range, yet its stored
(truncated) text has the same length — it is not longer. -/
theorem truncation_1503_counterexample :
    (List.replicate 1503 'a' : PyText).length = 1503 ∧
    (pyTruncate (List.replicate 1503 'a')).length =
      (List.replicate 1503 'a' : PyText).length ∧
    ¬ ((List.replicate 1503 'a' : PyText).length <
        (pyTruncate (List.replicate 1503 'a')).length) := by
  have hlen : (List.replicate 1503 'a' : PyText).length = 1503 := by
    rw [List.length_replicate]
  have h2 := (pyTruncate_long (List.replicate 1503 'a') (by omega)).2
  refine ⟨hlen, by omega, by omega⟩

/-! ## Synthesis pipeline claims -/

/-- Python falsiness of a `make_api_call` outcome: `None` or the empty
string. -/
def pyFalsy (o : Option PyText) : Prop := o = none ∨ o = some []

/-- C8 amended: `summarize_results` returns no summary (the failure
marker `None`) exactly when the chunk-summarization stage keeps no
summary — every chunk call failed or returned a falsy value, or there was
nothing to summarize — or when the single final-reduction call itself
returns a falsy value.  In particular a chunk whose call fails is merely
dropped, and the final reduction is attempted whenever at least one chunk
summary is kept; but a successful chunk stage does not guarantee a
summary, because the final-reduction call can still fail. -/
theorem summarizeResults_none_iff (r : ResultTree) (api : Nat → Option PyText)
    (topic endTime duration : PyText) :
    summarizeResults r api topic endTime duration = none ↔
      ((summarizeChunksGo api (chunkHierarchicalResults r) [] 0).1 = [] ∨
        pyFalsy (api (summarizeChunksGo api (chunkHierarchicalResults r) [] 0).2)) := by
  rw [summarizeResults]
  by_cases hr : r = []
  · rw [if_pos hr]
    subst hr
    simp only [true_iff]
    left
    rfl
  · rw [if_neg hr]
    by_cases hlen : (chunkHierarchicalResults r).length = 0
    · rw [if_pos hlen]
      simp only [true_iff]
      left
      rw [List.length_eq_zero.mp hlen]
      rfl
    · rw [if_neg hlen]
      by_cases hsum : (summarizeChunksGo api (chunkHierarchicalResults r) [] 0).1 = []
      · rw [if_pos hsum]
        simp [hsum]
      · rw [if_neg hsum]
        match hapi : api (summarizeChunksGo api (chunkHierarchicalResults r) [] 0).2 with
        | none =>
          simp [pyFalsy, hapi, hsum]
        | some fs =>
          show (if fs = [] then none
              else some (formatFinalSummary fs
                (createTimestampInfo endTime duration
                  (chunkHierarchicalResults r).length) topic endTime)) = none ↔
            ((summarizeChunksGo api (chunkHierarchicalResults r) [] 0).1 = [] ∨
              pyFalsy (some fs))
          by_cases hfs : fs = []
          · rw [if_pos hfs]
            subst hfs
            simp [pyFalsy, hapi, hsum]
          · rw [if_neg hfs]
            constructor
            · intro hcon
              simp at hcon
            · intro h
              rcases h with h | h
              · exact absurd h hsum
              · simp only [pyFalsy] at h
                rcases h with h | h
                · cases h
                · rw [Option.some_inj] at h
                  exact absurd h hfs
  
/-- C8 counterexample to the claim as stated: a run with a single chunk
whose summarization call succeeds (the kept summary set is non-empty), so
not every chunk-summarization call failed — yet the stage still returns
no summary, because the final-reduction call fails.  "Returns no summary
exactly when every chunk-summarization call fails" is therefore false. -/
theorem summarize_final_failure_counterexample :
    summarizeResults [("l", [("f", [("k", "ab".data)])])]
      (fun i => if i = 0 then some "ok".data else none)
      "t".data "n".data "d".data = none ∧
    (summarizeChunksGo (fun i => if i = 0 then some "ok".data else none)
      (chunkHierarchicalResults [("l", [("f", [("k", "ab".data)])])]) [] 0).1 =
      ["ok".data] := by
  refine ⟨rfl, rfl⟩
